import Mathlib

/-!
Verification of the serialization core of `haiku-lang` (simple- and
canonical-expression picklers) against its natural-language specification.

The Python sources embedded here are `haiku/pickle/simple.py` and
`haiku/pickle/canonical.py`.  The repository's `haiku/types` module (the
`Value` data model) and `haiku/utils/serialization` helpers are not part of
the source tree available here, so those parts are modelled from the spec
(each such definition carries a doc comment starting `Modelled from the
spec:`).  Everything else is a direct translation of the Python code.

Strings of Unicode code points are represented as `List Nat` (one entry per
code point); byte strings are also `List Nat` (one entry per byte).
-/

set_option maxHeartbeats 1000000

namespace Haiku

/-- Modelled from the spec: the expression data model of `haiku.types`
(absent from the source tree; only `omega.py` and `procedure.py` survive).
A `Value` is the tagged sum of §3 of the spec: Omega, Boolean, Integer,
Rational (numerator/denominator), Bytes (octets), Unicode (code points),
Set, Tuple (ordered mapping, represented as an association list), Sequence,
and the three unserializable variants Relation, Matrix and Procedure. -/
inductive Value where
  | omega
  | boolean (b : Bool)
  | integer (n : ℤ)
  | rational (num den : ℤ)
  | bytes (bs : List ℕ)
  | unicode (cs : List ℕ)
  | vset (elems : List Value)
  | tuple (entries : List (Value × Value))
  | sequence (elems : List Value)
  | relation
  | matrix
  | procedure

/-- Numeric view of a value: Python's numeric tower makes `bool`, integers
and fractions mutually comparable; a numeric value is viewed as a pair
(numerator, denominator). -/
def pyNum : Value → Option (ℤ × ℤ)
  | .boolean b => some (if b then 1 else 0, 1)
  | .integer n => some (n, 1)
  | .rational p q => some (p, q)
  | _ => none

mutual

/-- Computable structural size of a Value (used only as recursion fuel
for the Python equality and ordering models below). -/
def vsize : Value → ℕ
  | .omega => 1
  | .boolean _ => 1
  | .integer _ => 1
  | .rational _ _ => 1
  | .bytes _ => 1
  | .unicode _ => 1
  | .vset xs => 1 + vsizeList xs
  | .tuple xs => 1 + vsizePairs xs
  | .sequence xs => 1 + vsizeList xs
  | .relation => 1
  | .matrix => 1
  | .procedure => 1

def vsizeList : List Value → ℕ
  | [] => 1
  | x :: xs => vsize x + vsizeList xs

def vsizePairs : List (Value × Value) → ℕ
  | [] => 1
  | (k, v) :: xs => vsize k + vsize v + vsizePairs xs

end

/-- Modelled from the spec: Python 2 `==` on the value domain of the absent
`haiku.types` module, with explicit recursion fuel (`pyEq` below supplies
fuel that always suffices, so the fuel is invisible to callers).  Numeric
values compare by value (`True == 1`), `str`/`unicode` compare equal when
the octets are pure ASCII and agree with the code points, Tuples are equal
iff they hold the same key/value pairs (order-independent, §3 of the
spec), Sets by mutual containment, Sequences elementwise. -/
def pyEqF : ℕ → Value → Value → Bool
  | 0, _, _ => false
  | fuel + 1, a, b =>
      match a, b with
      | .omega, .omega => true
      | .bytes a, .bytes b => a = b
      | .unicode a, .unicode b => a = b
      | .bytes a, .unicode s => a = s && a.all (· < 128)
      | .unicode s, .bytes a => a = s && a.all (· < 128)
      | .vset xs, .vset ys =>
          xs.all (fun x => ys.any (fun y => pyEqF fuel x y)) &&
          ys.all (fun y => xs.any (fun x => pyEqF fuel x y))
      | .sequence xs, .sequence ys =>
          xs.length = ys.length &&
          (xs.zip ys).all (fun p => pyEqF fuel p.1 p.2)
      | .tuple xs, .tuple ys =>
          xs.length = ys.length &&
          xs.all (fun e =>
            ys.any (fun f => pyEqF fuel e.1 f.1 && pyEqF fuel e.2 f.2))
      | .relation, .relation => true
      | .matrix, .matrix => true
      | .procedure, .procedure => true
      | a, b =>
          match pyNum a, pyNum b with
          | some (p, q), some (r, s) => p * s = r * q
          | _, _ => false

/-- Python `==` on Values: `pyEqF` with fuel that always suffices (each
recursive step strictly decreases the combined structural size, which
starts strictly below the fuel). -/
def pyEq (a b : Value) : Bool := pyEqF (vsize a + vsize b) a b

/-- Rank used to order values of different variants, mirroring CPython 2's
default ordering: `None` below everything, numbers below all non-numbers,
and remaining variants in a fixed arbitrary (but deterministic) order. -/
def vrank : Value → ℕ
  | .omega => 0
  | .boolean _ => 1
  | .integer _ => 1
  | .rational _ _ => 1
  | .vset _ => 2
  | .tuple _ => 3
  | .sequence _ => 4
  | .bytes _ => 5
  | .unicode _ => 6
  | .relation => 7
  | .matrix => 8
  | .procedure => 9

/-- Lexicographic comparison of lists of naturals (byte strings or
code-point strings). -/
def lexNat : List ℕ → List ℕ → Ordering
  | [], [] => .eq
  | [], _ :: _ => .lt
  | _ :: _, [] => .gt
  | x :: xs, y :: ys =>
      match compare x y with
      | .eq => lexNat xs ys
      | o => o

/-- Lexicographic extension of an element comparison to lists. -/
def lexList (cmp : Value → Value → Ordering) : List Value → List Value → Ordering
  | [], [] => .eq
  | [], _ :: _ => .lt
  | _ :: _, [] => .gt
  | x :: xs, y :: ys =>
      match cmp x y with
      | .eq => lexList cmp xs ys
      | o => o

/-- Entrywise lexicographic extension to entry lists (key before value). -/
def lexPairs (cmp : Value → Value → Ordering) :
    List (Value × Value) → List (Value × Value) → Ordering
  | [], [] => .eq
  | [], _ :: _ => .lt
  | _ :: _, [] => .gt
  | (k, v) :: xs, (k', v') :: ys =>
      match cmp k k' with
      | .eq =>
          match cmp v v' with
          | .eq => lexPairs cmp xs ys
          | o => o
      | o => o

/-- Modelled from the spec: the total order on Values used by `sorted(...)`
in the two serializers (the Value classes live in the absent `haiku.types`
module), with explicit recursion fuel (`pyCompare` below supplies fuel
that always suffices).  CPython 2 semantics where they are pinned down by
the spec and the source: numbers (Booleans included) compare by numeric
value; `None` precedes everything; `str` and `unicode` compare by contents
when the octets are pure ASCII, otherwise the `str` is smaller; values of
different non-numeric variants compare by rank.  Same-variant containers
compare by length and then lexicographically. -/
def pyCompareF : ℕ → Value → Value → Ordering
  | 0, _, _ => .eq
  | fuel + 1, a, b =>
      match a, b with
      | .bytes a, .bytes b => lexNat a b
      | .unicode a, .unicode b => lexNat a b
      | .bytes a, .unicode s => if a.all (· < 128) then lexNat a s else .lt
      | .unicode s, .bytes a => if a.all (· < 128) then lexNat s a else .gt
      | .vset xs, .vset ys =>
          match compare xs.length ys.length with
          | .eq => lexList (pyCompareF fuel) xs ys
          | o => o
      | .sequence xs, .sequence ys =>
          match compare xs.length ys.length with
          | .eq => lexList (pyCompareF fuel) xs ys
          | o => o
      | .tuple xs, .tuple ys =>
          match compare xs.length ys.length with
          | .eq => lexPairs (pyCompareF fuel) xs ys
          | o => o
      | a, b =>
          match pyNum a, pyNum b with
          | some (p, q), some (r, s) => compare (p * s) (r * q)
          | _, _ => compare (vrank a) (vrank b)

/-- Python ordering on Values: `pyCompareF` with sufficient fuel. -/
def pyCompare (a b : Value) : Ordering := pyCompareF (vsize a + vsize b) a b

/-- The (decidable) `≤` relation backing Python's `sorted`. -/
def pyLe (a b : Value) : Prop := pyCompare a b ≠ .gt

instance : DecidableRel pyLe := fun a b => by
  unfold pyLe; infer_instance

/-- The `≤` relation on tuple entries, comparing keys (ties broken by
value, then left-to-right); used for sorting named arguments by key. -/
def pyKeyLe (a b : Value × Value) : Prop := pyCompare a.1 b.1 ≠ .gt

instance : DecidableRel pyKeyLe := fun a b => by
  unfold pyKeyLe; infer_instance

/-- Python `dict` lookup `d[k]` on the association-list representation:
the value of the first (and, for reachable dictionaries, only) entry whose
key is `==` to `k`.  `none` models a `KeyError`. -/
def pyLookup (t : List (Value × Value)) (k : Value) : Option Value :=
  (t.find? (fun e => pyEq e.1 k)).map (·.2)

/-- Python `dict` item assignment `d[k] = v`: if some entry's key is `==`
to `k` the stored value is replaced (the stored key object is kept),
otherwise the new pair is appended. -/
def pyInsert : List (Value × Value) → Value → Value → List (Value × Value)
  | [], k, v => [(k, v)]
  | (k', v') :: rest, k, v =>
      if pyEq k' k then (k', v) :: rest else (k', v') :: pyInsert rest k v

/-- Membership test `k in d` for Python dict keys. -/
def pyHasKey (t : List (Value × Value)) (k : Value) : Bool :=
  t.any (fun e => pyEq e.1 k)

/-- `d[k]` where the key is known to be present (defaulting to Omega). -/
def pyGet (t : List (Value × Value)) (k : Value) : Value :=
  (pyLookup t k).getD .omega

theorem int_sizeOf_pos (n : ℤ) : 0 < sizeOf n := by
  cases n with
  | ofNat m => show 0 < 1 + sizeOf m; omega
  | negSucc m => show 0 < 1 + sizeOf m; omega

/-- Python `list` equality via elementwise `==`. -/
def pyListEq (xs ys : List Value) : Bool :=
  xs.length = ys.length && (xs.zip ys).all (fun p => pyEq p.1 p.2)

/-! ### Character classes and string helpers (simple.py lines 91-103) -/

/-- ASCII code points of a string (all source alphabets are ASCII). -/
def ascii (s : String) : List ℕ := s.toList.map Char.toNat

/-- `INTEGER_SUBSEQUENT = u"0123456789"`. -/
def isDigit (c : ℕ) : Bool := 48 ≤ c && c ≤ 57

/-- `INTEGER_INITIAL = u"0123456789+-"`. -/
def isIntegerInitial (c : ℕ) : Bool := isDigit c || c = 43 || c = 45

/-- `ID_INITIAL`: the letters `A`-`Z`, `a`-`z` and the punctuation
characters `! ? * + - / % \ & | ^ ~ < = >`.  The tokenizer refers to this set as
`SYMBOL_INITIAL`; per §9 of the spec the two names are aliases (the
`SYMBOL_*` spelling is defined outside the available source tree). -/
def isIdInitial (c : ℕ) : Bool :=
  (65 ≤ c && c ≤ 90) || (97 ≤ c && c ≤ 122) ||
  c ∈ [33, 63, 42, 43, 45, 47, 37, 92, 38, 124, 94, 126, 60, 61, 62]

/-- `ID_SUBSEQUENT = ID_INITIAL + INTEGER_SUBSEQUENT` (alias
`SYMBOL_SUBSEQUENT`). -/
def isIdSubsequent (c : ℕ) : Bool := isIdInitial c || isDigit c

/-- Python 2 Unicode whitespace, the code points removed by
`unicode.strip()`; the tokenizer's test `not len(c.strip())`. -/
def isPyWs (c : ℕ) : Bool :=
  c ∈ [9, 10, 11, 12, 13, 28, 29, 30, 31, 32, 133, 160, 5760] ||
  (8192 ≤ c && c ≤ 8202) || c ∈ [8232, 8233, 8239, 8287, 12288]

/-- Code points at which Python 2 `unicode.splitlines()` breaks; the
tokenizer's newline test `len(u"".join([c, u"a"]).splitlines()) > 1`. -/
def isLineBreak (c : ℕ) : Bool :=
  c ∈ [10, 11, 12, 13, 28, 29, 30, 133, 8232, 8233]

/-- The `unicodeclose` set: the keys of `unicodemap` (simple.py 316-328). -/
def isUniClose (c : ℕ) : Bool :=
  c ∈ [34, 0x201D, 0x2019, 0xBB, 0xAB, 0x2039, 0x203A, 0x300C, 0x300E]

/-- `unicodemap[c]`, as the membership test `o ∈ unicodemap[c]` for a
closing character `c` (empty for non-closing `c`, matching
`unicodemap.get(n, ())`). -/
def uniMapHas (c o : ℕ) : Bool :=
  (c = 34 && o = 34) ||
  (c = 0x201D && (o = 0x201E || o = 0x201C || o = 0x201D)) ||
  (c = 0x2019 && (o = 0x201A || o = 0x2018 || o = 0x2019)) ||
  ((c = 0xBB || c = 0xAB) && (o = 0xAB || o = 0xBB)) ||
  ((c = 0x2039 || c = 0x203A) && (o = 0x2039 || o = 0x203A)) ||
  (c = 0x300C && o = 0x300D) ||
  (c = 0x300E && o = 0x300F)

/-- The `unicodeopen` set: the union of the `unicodemap` value sets. -/
def isUniOpen (c : ℕ) : Bool :=
  c ∈ [34, 0x201E, 0x201C, 0x201D, 0x201A, 0x2018, 0x2019,
       0xAB, 0xBB, 0x2039, 0x203A, 0x300D, 0x300F]

/-- Opening brackets `[`, `{`, `(`. -/
def isParenOpen (c : ℕ) : Bool := c = 91 || c = 123 || c = 40

/-- Closing brackets `]`, `}`, `)`. -/
def isParenClose (c : ℕ) : Bool := c = 93 || c = 125 || c = 41

/-- `parenmap`: the opening bracket matching a closing bracket. -/
def parenMatch (c : ℕ) : ℕ :=
  if c = 93 then 91 else if c = 125 then 123 else 40

/-- UTF-8 encoding of one code point (`unicode.encode('utf-8')`). -/
def utf8Char (c : ℕ) : List ℕ :=
  if c < 0x80 then [c]
  else if c < 0x800 then [0xC0 + c / 64, 0x80 + c % 64]
  else if c < 0x10000 then
    [0xE0 + c / 4096, 0x80 + (c / 64) % 64, 0x80 + c % 64]
  else
    [0xF0 + c / 262144, 0x80 + (c / 4096) % 64, 0x80 + (c / 64) % 64,
     0x80 + c % 64]

/-- UTF-8 encoding of a string of code points. -/
def utf8Str : List ℕ → List ℕ
  | [] => []
  | c :: rest => utf8Char c ++ utf8Str rest

/-- Decimal digits of a natural number, most significant first, with
explicit recursion fuel (a number's own magnitude always suffices since
`n / 10 < n` for `n ≥ 10`). -/
def natDigitsF : ℕ → ℕ → List ℕ
  | 0, n => [n]
  | fuel + 1, n => if n < 10 then [n] else natDigitsF fuel (n / 10) ++ [n % 10]

/-- Decimal digits of a natural number, most significant first. -/
def natDigits (n : ℕ) : List ℕ := natDigitsF n n

/-- Decimal notation of a natural number, as ASCII code points. -/
def natToDec (n : ℕ) : List ℕ := (natDigits n).map (· + 48)

/-- `unicode(expression)` for an arbitrary-precision integer: decimal
digits with a leading `-` for negative values. -/
def intToDec (n : ℤ) : List ℕ :=
  if n < 0 then 45 :: natToDec (-n).toNat else natToDec n.toNat

/-- Numeric value of a decimal digit string (`long(value)` without sign). -/
def digitsVal (ds : List ℕ) : ℕ := ds.foldl (fun a d => 10 * a + (d - 48)) 0

/-- `Integer(value)` on the tokenizer's number buffer: an optional `+`/`-`
sign followed by decimal digits. -/
def strToInt (cs : List ℕ) : ℤ :=
  match cs with
  | 43 :: rest => (digitsVal rest : ℤ)
  | 45 :: rest => -(digitsVal rest : ℤ)
  | _ => (digitsVal cs : ℤ)

/-- Character of the standard Base64 alphabet. -/
def b64Char (i : ℕ) : ℕ :=
  if i < 26 then 65 + i
  else if i < 52 then 97 + (i - 26)
  else if i < 62 then 48 + (i - 52)
  else if i = 62 then 43 else 47

/-- `b2a_base64(expression).strip()`: standard Base64 with `=` padding
(and the trailing newline stripped). -/
def base64Encode : List ℕ → List ℕ
  | [] => []
  | [a] => [b64Char (a / 4), b64Char (a % 4 * 16), 61, 61]
  | [a, b] => [b64Char (a / 4), b64Char (a % 4 * 16 + b / 16),
               b64Char (b % 16 * 4), 61]
  | a :: b :: c :: rest =>
      [b64Char (a / 4), b64Char (a % 4 * 16 + b / 16),
       b64Char (b % 16 * 4 + c / 64), b64Char (c % 64)] ++ base64Encode rest

/-- `value.replace(u'\\"', u'"')` (left-to-right, non-overlapping). -/
def unescapeQuotes : List ℕ → List ℕ
  | 92 :: 34 :: rest => 34 :: unescapeQuotes rest
  | c :: rest => c :: unescapeQuotes rest
  | [] => []

/-- `expression.replace(u'"', u'\\"')`. -/
def escapeQuotes : List ℕ → List ℕ
  | 34 :: rest => 92 :: 34 :: escapeQuotes rest
  | c :: rest => c :: escapeQuotes rest
  | [] => []

/-- `u" ".join(...)`. -/
def joinSpace : List (List ℕ) → List ℕ
  | [] => []
  | [x] => x
  | x :: rest => x ++ 32 :: joinSpace rest

/-! ### The simple-expression serializer (simple.py `_serialize`) -/

/-- Errors of the serializers: `NotImplementedError` for Relation, Matrix
and Procedure, and the `UnicodeDecodeError` that Python 2 raises when a
non-ASCII byte is tested for membership in a `unicode` string
(`expression[0] in self.ID_INITIAL`). -/
inductive SErr where
  | notImplemented
  | decodeError
  deriving DecidableEq, Repr

/-- Python `dict.pop(k)` on the association list: the value stored under
the first key `==` to `k`, and the list without that entry. -/
def pyPop : List (Value × Value) → Value → Option (Value × List (Value × Value))
  | [], _ => none
  | (k', v') :: rest, k =>
      if pyEq k' k then some (v', rest)
      else (pyPop rest k).map (fun p => (p.1, (k', v') :: p.2))

theorem pyPop_length {t : List (Value × Value)} {k : Value} {v rest} :
    pyPop t k = some (v, rest) → rest.length + 1 = t.length := by
  induction t generalizing v rest with
  | nil => simp [pyPop]
  | cons e t ih =>
      obtain ⟨k', v'⟩ := e
      simp only [pyPop]
      split
      · rintro h
        simp only [Option.some.injEq, Prod.mk.injEq] at h
        simp [← h.2]
      · cases hp : pyPop t k with
        | none => intro h; simp at h
        | some p =>
            obtain ⟨pv, pr⟩ := p
            simp only [Option.map_some', Option.some.injEq, Prod.mk.injEq]
            rintro ⟨rfl, rfl⟩
            simp [← ih hp]

/-- The positional-argument extraction loop of the two serializers
(simple.py 240-245, canonical.py 182-187): pop keys `0, 1, 2, …` while
present.  The fuel bounds the iteration count; `t.length + 1` steps always
suffice since every successful pop removes an entry. -/
def extractPosGo (t : List (Value × Value)) (k : ℕ) :
    ℕ → List Value × List (Value × Value)
  | 0 => ([], t)
  | fuel + 1 =>
      match pyPop t (.integer k) with
      | none => ([], t)
      | some (v, rest) =>
          let p := extractPosGo rest (k + 1) fuel
          (v :: p.1, p.2)

/-- Split a Tuple into its positional arguments and remaining named
entries. -/
def extractPos (t : List (Value × Value)) : List Value × List (Value × Value) :=
  extractPosGo t 0 (t.length + 1)

theorem pyPop_mem {t : List (Value × Value)} {k : Value} {v rest} :
    pyPop t k = some (v, rest) →
    (∃ k', (k', v) ∈ t) ∧ ∀ e ∈ rest, e ∈ t := by
  induction t generalizing v rest with
  | nil => simp [pyPop]
  | cons e t ih =>
      obtain ⟨k', v'⟩ := e
      simp only [pyPop]
      split
      · rintro h
        simp only [Option.some.injEq, Prod.mk.injEq] at h
        refine ⟨⟨k', by simp [h.1]⟩, ?_⟩
        intro x hx
        simp [h.2.symm ▸ hx]
      · cases hp : pyPop t k with
        | none => intro h; simp at h
        | some p =>
            obtain ⟨pv, pr⟩ := p
            simp only [Option.map_some', Option.some.injEq, Prod.mk.injEq]
            rintro ⟨rfl, rfl⟩
            obtain ⟨⟨kk, hkk⟩, hsub⟩ := ih hp
            refine ⟨⟨kk, by simp [hkk]⟩, ?_⟩
            intro x hx
            rcases List.mem_cons.mp hx with h | h
            · simp [h]
            · exact List.mem_cons_of_mem _ (hsub x h)

theorem extractPosGo_fst_mem {t : List (Value × Value)} {k fuel : ℕ} {a : Value} :
    a ∈ (extractPosGo t k fuel).1 → ∃ k', (k', a) ∈ t := by
  induction fuel generalizing t k with
  | zero => simp [extractPosGo]
  | succ fuel ih =>
      simp only [extractPosGo]
      cases hp : pyPop t (.integer k) with
      | none => simp
      | some p =>
          obtain ⟨pv, pr⟩ := p
          simp only [List.mem_cons]
          rintro (rfl | h)
          · exact (pyPop_mem hp).1
          · obtain ⟨k', hk'⟩ := ih h
            exact ⟨k', (pyPop_mem hp).2 _ hk'⟩

theorem extractPosGo_snd_mem {t : List (Value × Value)} {k fuel : ℕ}
    {e : Value × Value} :
    e ∈ (extractPosGo t k fuel).2 → e ∈ t := by
  induction fuel generalizing t k with
  | zero => simp [extractPosGo]
  | succ fuel ih =>
      simp only [extractPosGo]
      cases hp : pyPop t (.integer k) with
      | none => simp
      | some p =>
          obtain ⟨pv, pr⟩ := p
          intro h
          exact (pyPop_mem hp).2 _ (ih h)

theorem sizeOf_snd_lt_of_mem {t : List (Value × Value)} {k v : Value}
    (h : (k, v) ∈ t) : sizeOf v < sizeOf t := by
  have := List.sizeOf_lt_of_mem h
  simp only [Prod.mk.sizeOf_spec] at this
  omega

theorem sizeOf_fst_lt_of_mem {t : List (Value × Value)} {k v : Value}
    (h : (k, v) ∈ t) : sizeOf k < sizeOf t := by
  have := List.sizeOf_lt_of_mem h
  simp only [Prod.mk.sizeOf_spec] at this
  omega

/-- The tail of the identifier scan (`all(c in ID_SUBSEQUENT for c in
expression[1:])`, simple.py 215).  Testing a non-ASCII byte for membership
in a `unicode` string raises `UnicodeDecodeError` in Python 2, so the scan
stops with an error at the first non-ASCII byte it examines. -/
def idTail : List ℕ → Except SErr Bool
  | [] => .ok true
  | c :: rest =>
      if 128 ≤ c then .error .decodeError
      else if isIdSubsequent c then idTail rest
      else .ok false

/-- The identifier test on a byte-array (simple.py 214-215):
`expression[0] in ID_INITIAL`, then the tail scan. -/
def idScan (b : List ℕ) : Except SErr Bool :=
  match b with
  | [] => .ok false
  | c :: rest =>
      if 128 ≤ c then .error .decodeError
      else if isIdInitial c then idTail rest
      else .ok false

/-- `SimpleExpressionPickler._serialize` (simple.py 174-283), dispatching
on the Value variant exactly as the `isinstance` chain does.  Output is a
string of Unicode code points. -/
def simpleSerialize : Value → Except SErr (List ℕ)
  | .omega => .ok (ascii "#nil")
  | .boolean b => .ok (if b then ascii "#t" else ascii "#f")
  | .integer n => .ok (intToDec n)
  | .rational p q => do
      let np ← simpleSerialize (.integer p)
      let dq ← simpleSerialize (.integer q)
      .ok (91 :: joinSpace [ascii "rational", np, dq] ++ [93])
  | .unicode s => .ok (34 :: escapeQuotes s ++ [34])
  | .bytes b =>
      if b = [] then .ok (ascii "#nil")
      else
        match idScan b with
        | .error e => .error e
        | .ok true => .ok b
        | .ok false =>
            .ok (91 :: joinSpace [ascii "byte-array", base64Encode b] ++ [93])
  | .vset xs => do
      let parts ← (xs.insertionSort pyLe).attach.mapM
        (fun ⟨x, _⟩ => simpleSerialize x)
      .ok (91 :: joinSpace [ascii "set", joinSpace parts] ++ [93])
  | .tuple t => do
      let args := (extractPos t).1
      let named := (extractPos t).2
      let argStrs ← args.attach.mapM (fun ⟨x, _⟩ => simpleSerialize x)
      let namedStrs ← (named.insertionSort pyKeyLe).attach.mapM
        (fun ⟨(k, v), _⟩ => do
          let ks ← simpleSerialize k
          let vs ← simpleSerialize v
          pure (ks ++ 58 :: vs))
      .ok (91 :: (joinSpace argStrs ++
            (if args.isEmpty || named.isEmpty then [] else [32]) ++
            joinSpace namedStrs) ++ [93])
  | .sequence xs => do
      let parts ← xs.attach.mapM (fun ⟨x, _⟩ => simpleSerialize x)
      .ok (40 :: joinSpace parts ++ [41])
  | .relation => .error .notImplemented
  | .matrix => .error .notImplemented
  | .procedure => .error .notImplemented
termination_by v => sizeOf v
decreasing_by
  · simp_wf; have := int_sizeOf_pos q; omega
  · simp_wf; have := int_sizeOf_pos p; omega
  · rename_i hx
    have hm : x ∈ xs := (List.perm_insertionSort pyLe xs).mem_iff.mp hx
    have := List.sizeOf_lt_of_mem hm
    simp_wf
    omega
  · rename_i hx
    obtain ⟨k', hk'⟩ := extractPosGo_fst_mem hx
    have := sizeOf_snd_lt_of_mem hk'
    simp_wf
    omega
  · rename_i hkv
    have hm := (List.perm_insertionSort pyKeyLe _).mem_iff.mp hkv
    have := sizeOf_fst_lt_of_mem (extractPosGo_snd_mem hm)
    simp_wf
    omega
  · rename_i hkv
    have hm := (List.perm_insertionSort pyKeyLe _).mem_iff.mp hkv
    have := sizeOf_snd_lt_of_mem (extractPosGo_snd_mem hm)
    simp_wf
    omega
  · rename_i hx
    have := List.sizeOf_lt_of_mem hx
    simp_wf
    omega

/-- `dumps` with a single argument (the only arity the claims need): just
`_serialize` (simple.py 126-145). -/
def simpleDumps (v : Value) : Except SErr (List ℕ) := simpleSerialize v

/-! ### The simple-expression tokenizer (simple.py `_tokenize`) -/

/-- The syntax-token alphabet (the `TOKEN_SYNTAX` values). -/
inductive SSyn where
  | tupleOpen
  | tupleClose
  | evalOpen
  | evalClose
  | seqOpen
  | seqClose
  | assoc
  | quote
  | unquote
  | unquoteSplice
  deriving DecidableEq, Repr

/-- A token: `(TOKEN_SYNTAX, …)` or `(TOKEN_LITERAL, value)`. -/
inductive SToken where
  | syn (s : SSyn)
  | lit (v : Value)

/-- Tokenizer errors.  The first seven are the `TokenError`s raised in
`_tokenize`; `noneLookahead` is the `TypeError` Python 2 raises at
simple.py 404 when `n` is `None` in `n in self.INTEGER_SUBSEQUENT`
(input ending in a bare `+` or `-`). -/
inductive TkErr where
  | unmatchedClose
  | mismatchedParen
  | eofUnmatched
  | eofComment
  | eofConstant
  | badConstantName
  | badConstantChar
  | noneLookahead
  deriving DecidableEq, Repr

/-- The DFA state.  The Python code keeps `state`, `value`, `count` and
`initial` as separate mutable variables; each non-INITIAL state initializes
the variables it reads on entry, so the state is represented here with the
live data attached to the mode.  `comment true` is a comment entered from
the CONSTANT state (with an empty buffer, the only way in); `comment
false` one entered from INITIAL. -/
inductive TkMode where
  | initial
  | comment (fromConstant : Bool)
  | symbol (value : List ℕ)
  | constant (value : List ℕ)
  | number (value : List ℕ)
  | str (value : List ℕ) (count : ℕ) (initCh : ℕ)

/-- The syntax token for an opening bracket character. -/
def openTok (c : ℕ) : SSyn :=
  if c = 91 then .tupleOpen else if c = 123 then .evalOpen else .seqOpen

/-- The syntax token for a closing bracket character. -/
def closeTok (c : ℕ) : SSyn :=
  if c = 93 then .tupleClose else if c = 125 then .evalClose else .seqClose

/-- The `CONSTANT`-state block for an empty buffer (simple.py 421-431):
examines the lookahead to skip whitespace between `#` and the constant
name, start the name, enter a comment, or fail. -/
def constantEmpty (ps : List ℕ) (n : Option ℕ) :
    Except TkErr (TkMode × List ℕ × List SToken) :=
  match n with
  | none => .error .eofConstant
  | some nc =>
      if isPyWs nc then .ok (.constant [], ps, [])
      else if isIdInitial nc then .ok (.constant [nc], ps, [])
      else if nc = 59 then .ok (.comment true, ps, [])
      else .error .badConstantChar

/-- Yield a SYMBOL (`Bytes(value.encode('utf-8'))`) or CONSTANT
(`#nil`/`#f`/`#t`) literal token. -/
def symbolYield (value : List ℕ) (isConst : Bool) (ps : List ℕ) :
    Except TkErr (TkMode × List ℕ × List SToken) :=
  if isConst then
    if value = ascii "nil" then .ok (.initial, ps, [.lit .omega])
    else if value = ascii "f" then .ok (.initial, ps, [.lit (.boolean false)])
    else if value = ascii "t" then .ok (.initial, ps, [.lit (.boolean true)])
    else .error .badConstantName
  else .ok (.initial, ps, [.lit (.bytes (utf8Str value))])

/-- The shared `SYMBOL`/`CONSTANT` fill-and-yield block (simple.py
433-448): extend the buffer while the lookahead is a symbol-subsequent
character, otherwise yield the token and return to INITIAL. -/
def symbolFill (value : List ℕ) (isConst : Bool) (ps : List ℕ) (n : Option ℕ) :
    Except TkErr (TkMode × List ℕ × List SToken) :=
  match n with
  | some nc =>
      if ¬isPyWs nc ∧ isIdSubsequent nc then
        .ok (if isConst then .constant (value ++ [nc]) else .symbol (value ++ [nc]),
             ps, [])
      else symbolYield value isConst ps
  | none => symbolYield value isConst ps

/-- The `NUMBER`-state block (simple.py 450-456). -/
def numberFill (value : List ℕ) (ps : List ℕ) (n : Option ℕ) :
    Except TkErr (TkMode × List ℕ × List SToken) :=
  match n with
  | some nc =>
      if ¬isPyWs nc ∧ isDigit nc then .ok (.number (value ++ [nc]), ps, [])
      else .ok (.initial, ps, [.lit (.integer (strToInt value))])
  | none => .ok (.initial, ps, [.lit (.integer (strToInt value))])

/-- The `UNICODE`-state block (simple.py 458-470): close the string when an
unescaped matching close quote arrives, otherwise track the run of
backslashes and append the character unless it is a backslash escaping a
backslash or a close quote. -/
def strStep (value : List ℕ) (count initCh : ℕ) (ps : List ℕ) (c : ℕ)
    (n : Option ℕ) : Except TkErr (TkMode × List ℕ × List SToken) :=
  if isUniClose c ∧ uniMapHas c initCh ∧ count % 2 = 0 then
    .ok (.initial, ps, [.lit (.unicode (unescapeQuotes value))])
  else
    let count' := if c = 92 then count + 1 else 0
    let escaping := c = 92 &&
      (n = some 92 || (match n with | some nc => uniMapHas nc initCh | none => false)) &&
      count' % 2 = 1
    .ok (.str (if escaping then value else value ++ [c]) count' initCh, ps, [])

/-- The post-INITIAL part of one loop iteration: the `if`-blocks on
COMMENT, CONSTANT, SYMBOL, NUMBER and UNICODE states (simple.py 412-470),
entered either directly (the state carried over from the previous
character) or by fall-through from the INITIAL dispatch. -/
def tokRest (m : TkMode) (ps : List ℕ) (c : ℕ) (n : Option ℕ) :
    Except TkErr (TkMode × List ℕ × List SToken) :=
  match m with
  | .initial => .ok (.initial, ps, [])
  | .comment fromC =>
      if isLineBreak c then
        if fromC then constantEmpty ps n else .ok (.initial, ps, [])
      else .ok (.comment fromC, ps, [])
  | .constant value =>
      if value = [] then constantEmpty ps n else symbolFill value true ps n
  | .symbol value => symbolFill value false ps n
  | .number value => numberFill value ps n
  | .str value count initCh => strStep value count initCh ps c n

/-- One iteration of the tokenizer loop on the lookahead pair `(c, n)`
(simple.py 349-470): the INITIAL-state dispatch, falling through to
`tokRest` for the branches that do not `continue`. -/
def tokStep (m : TkMode) (ps : List ℕ) (c : ℕ) (n : Option ℕ) :
    Except TkErr (TkMode × List ℕ × List SToken) :=
  match m with
  | .initial =>
      if isPyWs c then .ok (.initial, ps, [])
      else if c = 58 then .ok (.initial, ps, [.syn .assoc])
      else if c = 39 then .ok (.initial, ps, [.syn .quote])
      else if c = 44 then .ok (.initial, ps, [.syn .unquote])
      else if c = 96 then .ok (.initial, ps, [.syn .unquoteSplice])
      else if isParenOpen c then .ok (.initial, c :: ps, [.syn (openTok c)])
      else if isParenClose c then
        match ps with
        | [] => .error .unmatchedClose
        | p :: rest =>
            if p = parenMatch c then .ok (.initial, rest, [.syn (closeTok c)])
            else .error .mismatchedParen
      else if isUniOpen c then .ok (.str [] 0 c, ps, [])
      else if c = 35 then tokRest (.constant []) ps c n
      else if c = 59 then .ok (.comment false, ps, [])
      else if isIdInitial c then
        if isIntegerInitial c then
          match n with
          | none => .error .noneLookahead
          | some nc =>
              if isDigit nc then tokRest (.number [c]) ps c n
              else tokRest (.symbol [c]) ps c n
        else tokRest (.symbol [c]) ps c n
      else if isIntegerInitial c then tokRest (.number [c]) ps c n
      else .ok (.initial, ps, [])
  | m => tokRest m ps c n

/-- The tokenizer main loop over the input, with one-character lookahead,
followed by the end-of-input checks (simple.py 472-479): unmatched open
brackets first, then an unterminated comment. -/
def tokGo (m : TkMode) (ps : List ℕ) : List ℕ → Except TkErr (List SToken)
  | [] =>
      if ps ≠ [] then .error .eofUnmatched
      else
        match m with
        | .comment _ => .error .eofComment
        | _ => .ok []
  | c :: rest => do
      let (m', ps', ts) ← tokStep m ps c rest.head?
      let ts' ← tokGo m' ps' rest
      .ok (ts ++ ts')

/-- `SimpleExpressionPickler._tokenize` on a whole input string. -/
def simpleTokenize (s : List ℕ) : Except TkErr (List SToken) :=
  tokGo .initial [] s

/-- Modelled from the spec: "Every opening bracket must be closed by a
same-family closing bracket".  A stack scan of the raw character stream;
it describes the bracket structure directly for inputs that cannot enter
the string, comment or constant state. -/
def specBalanced (ps : List ℕ) : List ℕ → Bool
  | [] => ps.isEmpty
  | c :: rest =>
      if isParenOpen c then specBalanced (c :: ps) rest
      else if isParenClose c then
        match ps with
        | [] => false
        | p :: t => p = parenMatch c && specBalanced t rest
      else specBalanced ps rest

/-- Characters that keep the tokenizer out of the string, constant and
comment states: no quote openers, no `#`, no `;`. -/
def tameChar (c : ℕ) : Bool := !isUniOpen c && c ≠ 35 && c ≠ 59

/-- The tokenizer modes reachable on tame input, together with the
entry condition the DFA established for the upcoming character (a
SYMBOL/NUMBER state survives to the next iteration only after its
lookahead test passed). -/
def modeTame : TkMode → List ℕ → Prop
  | .initial, _ => True
  | .symbol _, s =>
      ∃ c rest, s = c :: rest ∧ isPyWs c = false ∧ isIdSubsequent c = true
  | .number _, s =>
      ∃ c rest, s = c :: rest ∧ isPyWs c = false ∧ isDigit c = true
  | _, _ => False

/-! ### The simple-expression parser (simple.py `_parse`) -/

/-- Parser errors: the three `SyntaxError`s of `_parse` plus the
`IndexError` from `parens.pop(-1)` on an empty stack (unreachable through
`loads`, whose tokenizer rejects unbalanced brackets first). -/
inductive PErr where
  | detachedAssoc
  | closeWithKey
  | popEmpty
  | mismatchedClose
  | seqContiguity
  deriving DecidableEq, Repr

/-- The parser state: the pending key (`None` models the `SENTINEL`), the
positional counter, the tuple under construction, the pending quote names,
and the three parallel stacks of saved counters, saved tuples and expected
closing tokens. -/
structure PState where
  key : Option Value
  cnt : ℤ
  cur : List (Value × Value)
  quotes : List (List ℕ)
  counts : List ℤ
  tuples : List (List (Value × Value))
  parens : List SSyn

/-- `for quote in reversed(quotes): value = Tuple([(0, quote), (1, value)])`
(simple.py 569-571): the first-pushed quote ends up outermost. -/
def applyQuotes : List (List ℕ) → Value → Value
  | [], v => v
  | q :: rest, v =>
      .tuple [(.integer 0, .bytes q), (.integer 1, applyQuotes rest v)]

/-- Whether the lookahead token is the association operator
(`n == (self.TOKEN_SYNTAX, self.ASSOCIATION_OPERATOR)`). -/
def isAssocTok : Option SToken → Bool
  | some (.syn .assoc) => true
  | _ => false

/-- The Unicode-key adjustment (simple.py 580-582): a Unicode key has
U+FEFF prepended before insertion. -/
def feffAdjust : Value → Value
  | .unicode s => .unicode (0xFEFF :: s)
  | k => k

/-- The completed-value tail of one parser iteration (simple.py 568-586):
apply pending quotes, promote the value to a pending key when the
lookahead is `:`, otherwise insert under the pending key or the positional
counter, prefixing Unicode keys with U+FEFF. -/
def finishValue (st : PState) (v : Value) (n : Option SToken) : PState :=
  let v' := applyQuotes st.quotes v
  match st.key with
  | none =>
      if isAssocTok n then { st with key := some v', quotes := [] }
      else
        { st with cur := pyInsert st.cur (feffAdjust (.integer st.cnt)) v',
                  cnt := st.cnt + 1, quotes := [], key := none }
  | some k =>
      { st with cur := pyInsert st.cur (feffAdjust k) v', quotes := [],
                key := none }

/-- The list of keys of the tuple under construction, sorted with Python's
`sorted` (`sorted(tuple_.keys())`). -/
def sortedKeys (t : List (Value × Value)) : List Value :=
  (t.map Prod.fst).insertionSort pyLe

/-- `[Integer(x) for x in xrange(len(tuple_))]`. -/
def rangeKeys (n : ℕ) : List Value :=
  (List.range n).map (fun i => .integer (Int.ofNat i))

/-- Closing a `(`-container (simple.py 559-563): `SyntaxError` unless
`sorted(tuple_.keys()) == [Integer(x) for x in xrange(len(tuple_))]`
(Python list `==`, so Booleans compare equal to `0`/`1`), else the
Sequence of the values in sorted-key order. -/
def seqCloseVal (t : List (Value × Value)) : Except PErr Value :=
  if pyListEq (sortedKeys t) (rangeKeys t.length) then
    .ok (.sequence ((sortedKeys t).map (pyGet t)))
  else .error .seqContiguity

/-- Closing a `{`-container (simple.py 554-558): quote the tuple with every
value unquoted. -/
def evalCloseVal (t : List (Value × Value)) : Value :=
  .tuple [(.integer 0, .bytes (ascii "quote")),
          (.integer 1, .tuple (t.map (fun e =>
            (e.1, Value.tuple [(.integer 0, .bytes (ascii "unquote")),
                               (.integer 1, e.2)]))))]

/-- The matching closing token pushed for an opening token
(`parenmap[cv]`, simple.py 502-507). -/
def closeOf : SSyn → SSyn
  | .tupleOpen => .tupleClose
  | .evalOpen => .evalClose
  | _ => .seqClose

/-- Opening a container (simple.py 539-542): save the counter and tuple,
push the expected closing token, and start fresh.  The pending key and
pending quotes are (faithfully) left untouched. -/
def pushContainer (st : PState) (s : SSyn) : PState :=
  { st with cnt := 0, cur := [],
            counts := st.cnt :: st.counts,
            tuples := st.cur :: st.tuples,
            parens := closeOf s :: st.parens }

/-- Closing a container (simple.py 544-566): fail on a pending key, pop
and check the bracket stack, build the closed value, restore the parent
counter and tuple, then run the completed-value tail.  Returns the state
in which parsing continues. -/
def closeStep (st : PState) (s : SSyn) (n : Option SToken) :
    Except PErr PState :=
  if st.key.isSome then .error .closeWithKey
  else
    match st.parens with
    | [] => .error .popEmpty
    | p :: prest =>
        if p ≠ s then .error .mismatchedClose
        else do
          let value ←
            match s with
            | .seqClose => seqCloseVal st.cur
            | .evalClose => .ok (evalCloseVal st.cur)
            | _ => .ok (.tuple st.cur)
          match st.counts, st.tuples with
          | cnt0 :: crest, t0 :: trest =>
              .ok (finishValue
                { st with key := none, cnt := cnt0, cur := t0,
                          counts := crest, tuples := trest, parens := prest }
                value n)
          | _, _ => .error .popEmpty

/-- `SimpleExpressionPickler._parse` (simple.py 486-588) over a token
stream with one-token lookahead; returns the tuple under construction when
the tokens are exhausted. -/
def parseGo (st : PState) : List SToken → Except PErr (List (Value × Value))
  | [] => .ok st.cur
  | c :: rest =>
      let n := rest.head?
      match c with
      | .lit v => parseGo (finishValue st v n) rest
      | .syn .assoc =>
          match st.key with
          | none => .error .detachedAssoc
          | some _ => parseGo st rest
      | .syn .quote => parseGo { st with quotes := st.quotes ++ [ascii "quote"] } rest
      | .syn .unquote =>
          parseGo { st with quotes := st.quotes ++ [ascii "unquote"] } rest
      | .syn .unquoteSplice =>
          parseGo { st with quotes := st.quotes ++ [ascii "unquote-splice"] } rest
      | .syn .tupleOpen => parseGo (pushContainer st .tupleOpen) rest
      | .syn .evalOpen => parseGo (pushContainer st .evalOpen) rest
      | .syn .seqOpen => parseGo (pushContainer st .seqOpen) rest
      | .syn .tupleClose => do parseGo (← closeStep st .tupleClose n) rest
      | .syn .evalClose => do parseGo (← closeStep st .evalClose n) rest
      | .syn .seqClose => do parseGo (← closeStep st .seqClose n) rest

/-- `_parse` from the initial state. -/
def simpleParse (ts : List SToken) : Except PErr (List (Value × Value)) :=
  parseGo ⟨none, 0, [], [], [], [], []⟩ ts

/-- Errors of `loads`: either stage can fail. -/
inductive LoadErr where
  | tokErr (e : TkErr)
  | parseErr (e : PErr)
  deriving DecidableEq, Repr

/-- `SimpleExpressionPickler.loads` on one string (simple.py 158-172):
`self._parse(self._tokenize(args[0]))`.  The Python generators interleave
lazily; composing the stages eagerly is observably identical whenever at
most one stage fails (in particular on every successful parse), which
covers every input these theorems evaluate. -/
def simpleLoads (s : List ℕ) : Except LoadErr Value :=
  match simpleTokenize s with
  | .error e => .error (.tokErr e)
  | .ok ts =>
      match simpleParse ts with
      | .error e => .error (.parseErr e)
      | .ok t => .ok (.tuple t)

/-! ### The canonical-expression serializer (canonical.py) -/

/-- Modelled from the spec: `s2varstring` of the absent
`haiku.utils.serialization` module — a length-prefixed atom
`<decimal>:<bytes>` (§4.4 of the spec, "Atoms are written
`<decimal>:<bytes>`"). -/
def s2varstring (s : List ℕ) : List ℕ := natToDec s.length ++ 58 :: s

/-- Whether `n` fits in `L` bytes of two's-complement (with at least one
byte). -/
def tcFits (n : ℤ) (L : ℕ) : Prop :=
  0 < L ∧ -(2 ^ (8 * L - 1)) ≤ n ∧ n < 2 ^ (8 * L - 1)

instance (n : ℤ) (L : ℕ) : Decidable (tcFits n L) := by
  unfold tcFits; infer_instance

theorem tcFits_exists (n : ℤ) : ∃ L, tcFits n L := by
  refine ⟨n.natAbs + 1, by omega, ?_, ?_⟩
  · have h1 : (n.natAbs : ℤ) < 2 ^ (8 * (n.natAbs + 1) - 1) := by
      calc (n.natAbs : ℤ) < 2 ^ n.natAbs := by
            exact_mod_cast Nat.lt_two_pow n.natAbs
        _ ≤ 2 ^ (8 * (n.natAbs + 1) - 1) := by
            apply pow_le_pow_right (by norm_num)
            omega
    omega
  · have h1 : (n.natAbs : ℤ) < 2 ^ (8 * (n.natAbs + 1) - 1) := by
      calc (n.natAbs : ℤ) < 2 ^ n.natAbs := by
            exact_mod_cast Nat.lt_two_pow n.natAbs
        _ ≤ 2 ^ (8 * (n.natAbs + 1) - 1) := by
            apply pow_le_pow_right (by norm_num)
            omega
    omega

/-- The minimal number of two's-complement bytes for `n`. -/
def tcLen (n : ℤ) : ℕ := Nat.find (tcFits_exists n)

/-- Big-endian base-256 digits of `m`, padded/truncated to `L` bytes. -/
def natToBE : ℕ → ℕ → List ℕ
  | 0, _ => []
  | L + 1, m => natToBE L (m / 256) ++ [m % 256]

/-- Modelled from the spec: `i2bytearray` of the absent
`haiku.utils.serialization` module — "the integer's big-endian
two's-complement minimal-length byte encoding" (§4.4); the caller handles
zero separately. -/
def i2bytearray (n : ℤ) : List ℕ :=
  natToBE (tcLen n) (n % (2 : ℤ) ^ (8 * tcLen n)).toNat

/-- The `special_pattern` test of canonical.py 155-156:
`len(expr) == 2 and set(expr.keys()) == set(range(2))` (Python set
equality, i.e. every key is `==` to `0` or `1` and both are present). -/
def specialPattern (t : List (Value × Value)) : Bool :=
  t.length = 2 && pyHasKey t (.integer 0) && pyHasKey t (.integer 1) &&
  t.all (fun e => pyEq e.1 (.integer 0) || pyEq e.1 (.integer 1))

theorem list_pair_sizeOf_pos (l : List (Value × Value)) : 1 ≤ sizeOf l := by
  cases l with
  | nil => simp
  | cons a l => simp only [List.cons.sizeOf_spec]; omega

theorem sizeOf_pyGet_lt (t : List (Value × Value)) (k : Value) :
    sizeOf (pyGet t k) < sizeOf (Value.tuple t) := by
  unfold pyGet pyLookup
  cases hf : t.find? (fun e => pyEq e.1 k) with
  | none =>
      simp only [Option.map_none', Option.getD_none, Value.tuple.sizeOf_spec]
      have := list_pair_sizeOf_pos t
      simp only [Value.omega.sizeOf_spec]
      omega
  | some e =>
      obtain ⟨k', v⟩ := e
      have hm := List.mem_of_find?_eq_some hf
      have := sizeOf_snd_lt_of_mem hm
      simp only [Option.map_some', Option.getD_some, Value.tuple.sizeOf_spec]
      omega

/-- `CanonicalExpressionPickler._serialize` (canonical.py 94-224).  The
bracket, quote and association characters and the `QUOTE_PROCEDURE` /
`UNQUOTE_PROCEDURE` / `UNQUOTE_SPLICE_PROCEDURE` symbols are referenced by
the class but not defined in the available source; they are modelled from
the spec's grammar (§4.4): brackets `[` `]` `(` `)`, shorthands `'` `,`
`` ` ``, association `=`, and the special-form names `quote`, `unquote`,
`unquote-splice` as Bytes. -/
def canonicalSerialize : Value → Except SErr (List ℕ)
  | .omega => .ok (s2varstring [])
  | .boolean b =>
      .ok (if b then 91 :: s2varstring (ascii "true") ++ [93]
           else 91 :: s2varstring (ascii "false") ++ [93])
  | .integer n =>
      .ok (91 :: (s2varstring (ascii "integer") ++
            s2varstring (if n = 0 then [] else i2bytearray n)) ++ [93])
  | .rational p q => do
      let np ← canonicalSerialize (.integer p)
      let dq ← canonicalSerialize (.integer q)
      .ok (91 :: (s2varstring (ascii "rational") ++ np ++ dq) ++ [93])
  | .unicode s =>
      .ok (91 :: (s2varstring (ascii "string") ++ s2varstring (utf8Str s)) ++ [93])
  | .bytes b => .ok (s2varstring b)
  | .vset xs => do
      let parts ← (xs.insertionSort pyLe).attach.mapM
        (fun ⟨x, _⟩ => canonicalSerialize x)
      .ok (91 :: (s2varstring (ascii "set") ++ parts.flatten) ++ [93])
  | .tuple t =>
      if specialPattern t ∧ pyEq (pyGet t (.integer 0)) (.bytes (ascii "quote")) then do
        let inner ← canonicalSerialize (pyGet t (.integer 1))
        .ok (39 :: inner)
      else if specialPattern t ∧ pyEq (pyGet t (.integer 0)) (.bytes (ascii "unquote")) then do
        let inner ← canonicalSerialize (pyGet t (.integer 1))
        .ok (44 :: inner)
      else if specialPattern t ∧
          pyEq (pyGet t (.integer 0)) (.bytes (ascii "unquote-splice")) then do
        let inner ← canonicalSerialize (pyGet t (.integer 1))
        .ok (96 :: inner)
      else do
        let args := (extractPos t).1
        let named := (extractPos t).2
        let argStrs ← args.attach.mapM (fun ⟨x, _⟩ => canonicalSerialize x)
        let namedStrs ← (named.insertionSort pyKeyLe).attach.mapM
          (fun ⟨(k, v), _⟩ => do
            let ks ← canonicalSerialize k
            let vs ← canonicalSerialize v
            pure (61 :: ks ++ vs))
        .ok (91 :: (argStrs.flatten ++ namedStrs.flatten) ++ [93])
  | .sequence xs => do
      let parts ← xs.attach.mapM (fun ⟨x, _⟩ => canonicalSerialize x)
      .ok (40 :: parts.flatten ++ [41])
  | .relation => .error .notImplemented
  | .matrix => .error .notImplemented
  | .procedure => .error .notImplemented
termination_by v => sizeOf v
decreasing_by
  · simp_wf; have := int_sizeOf_pos q; omega
  · simp_wf; have := int_sizeOf_pos p; omega
  · rename_i hx
    have hm : x ∈ xs := (List.perm_insertionSort pyLe xs).mem_iff.mp hx
    have := List.sizeOf_lt_of_mem hm
    simp_wf
    omega
  · exact sizeOf_pyGet_lt t (.integer 1)
  · exact sizeOf_pyGet_lt t (.integer 1)
  · exact sizeOf_pyGet_lt t (.integer 1)
  · rename_i hx
    obtain ⟨k', hk'⟩ := extractPosGo_fst_mem hx
    have := sizeOf_snd_lt_of_mem hk'
    simp_wf
    omega
  · rename_i hkv
    have hm := (List.perm_insertionSort pyKeyLe _).mem_iff.mp hkv
    have := sizeOf_fst_lt_of_mem (extractPosGo_snd_mem hm)
    simp_wf
    omega
  · rename_i hkv
    have hm := (List.perm_insertionSort pyKeyLe _).mem_iff.mp hkv
    have := sizeOf_snd_lt_of_mem (extractPosGo_snd_mem hm)
    simp_wf
    omega
  · rename_i hx
    have := List.sizeOf_lt_of_mem hx
    simp_wf
    omega

/-- `dumps` with a single argument for the canonical codec
(canonical.py 70-89). -/
def canonicalDumps (v : Value) : Except SErr (List ℕ) := canonicalSerialize v

/-- `CanonicalExpressionPickler.load` (canonical.py 91-92): the
deserialization entry point in the source is the stub `return []`,
regardless of the input. -/
def canonicalLoad (_ : List ℕ) : List Value := []

/-! ### Basic facts about the Python equality model -/

theorem pyEq_integer_integer (m n : ℤ) :
    pyEq (.integer m) (.integer n) = decide (m = n) := by
  show pyEqF 2 _ _ = _
  simp [pyEqF, pyNum]

theorem pyEq_integer_bytes (m : ℤ) (b : List ℕ) :
    pyEq (.integer m) (.bytes b) = false := rfl

theorem pyEq_bytes_integer (b : List ℕ) (m : ℤ) :
    pyEq (.bytes b) (.integer m) = false := rfl

theorem pyEq_bytes_bytes (a b : List ℕ) :
    pyEq (.bytes a) (.bytes b) = decide (a = b) := rfl

/-! ### Claim theorems: the easy concrete claims -/

/-- **C9.** `simple.loads` applied to the empty string, to a string of only
spaces, and to a single newline each return the empty Tuple. -/
theorem c9_empty_inputs :
    simpleLoads (ascii "") = .ok (.tuple []) ∧
    simpleLoads (ascii "   ") = .ok (.tuple []) ∧
    simpleLoads (ascii "\n") = .ok (.tuple []) :=
  ⟨rfl, rfl, rfl⟩

/-- **C10.** `dumps` of the empty Bytes value is the text `#nil`,
byte-identical to `dumps` of Omega, so the simple serializer is not
injective (empty Bytes and Omega are distinct values, also under
Python `==`); consequently `loads(dumps(Bytes('')))` yields a Tuple whose
single entry is Omega rather than the empty Bytes value. -/
theorem c10_empty_bytes_nil :
    simpleDumps (.bytes []) = .ok (ascii "#nil") ∧
    simpleDumps .omega = .ok (ascii "#nil") ∧
    Value.bytes [] ≠ Value.omega ∧
    pyEq (.bytes []) .omega = false ∧
    simpleLoads (ascii "#nil") = .ok (.tuple [(.integer 0, .omega)]) ∧
    Value.tuple [(.integer 0, .omega)] ≠ .tuple [(.integer 0, .bytes [])] := by
  refine ⟨?_, ?_, ?_, rfl, rfl, ?_⟩
  · simp [simpleDumps, simpleSerialize]
  · simp [simpleDumps, simpleSerialize]
  · intro h; cases h
  · intro h; simp at h

/-- **C5 (code behavior at the failing input).** The simple serializer's
Unicode branch escapes only double quotes (`expression.replace(u'"',
u'\\"')`, simple.py 204): serializing the one-character string `\` yields
the three characters `"` `\` `"`, not the four characters `"` `\` `\` `"`
that the spec (and the repo's own test for `u'"\\\\"'`) require; a
backslash passes through `escapeQuotes` unchanged. -/
theorem c5_backslash_not_escaped :
    simpleDumps (.unicode [92]) = .ok [34, 92, 34] ∧
    escapeQuotes [92] = [92] ∧
    [34, 92, 34] ≠ [34, 92, 92, 34] := by
  refine ⟨?_, rfl, by simp⟩
  simp [simpleDumps, simpleSerialize, escapeQuotes]

/-- **C4 (code behavior at the failing input).** The tokenizer has no
rational handling: `loads(u'1/2')` yields Integer 1 followed by the symbol
`/2` (no Rational value anywhere), while `loads(u'1 / 2')` yields the
three entries Integer 1, Bytes `/`, Integer 2 as the claim says. -/
theorem c4_no_rational_lexing :
    simpleLoads (ascii "1/2") =
      .ok (.tuple [(.integer 0, .integer 1), (.integer 1, .bytes (ascii "/2"))]) ∧
    simpleLoads (ascii "1 / 2") =
      .ok (.tuple [(.integer 0, .integer 1), (.integer 1, .bytes (ascii "/")),
                   (.integer 2, .integer 2)]) ∧
    (∀ p q : ℤ, Value.integer 1 ≠ .rational p q) ∧
    (∀ p q : ℤ, Value.bytes (ascii "/2") ≠ .rational p q) := by
  refine ⟨rfl, rfl, ?_, ?_⟩ <;> intro p q h <;> cases h

/-- **C2 (code behavior).** The canonical codec's deserialization entry
point is the stub `load` returning the empty list for every input
(canonical.py 91-92; no `loads` is implemented, the abstract
`BasePickler.loads` is inherited), so `load(dumps(Integer(3)))` is `[]`
and in particular never the singleton `[Integer(3)]`. -/
theorem c2_canonical_load_stub :
    (∀ b : List ℕ, canonicalLoad b = []) ∧
    canonicalDumps (.integer 3) =
      .ok [91, 55, 58, 105, 110, 116, 101, 103, 101, 114, 49, 58, 3, 93] ∧
    (∀ v : Value, canonicalLoad
      [91, 55, 58, 105, 110, 116, 101, 103, 101, 114, 49, 58, 3, 93] ≠ [v]) := by
  refine ⟨fun _ => rfl, ?_, fun v h => by cases h⟩
  have h1 : tcLen 3 = 1 := by
    rw [tcLen, Nat.find_eq_iff]
    exact ⟨by decide, by decide⟩
  have h2 : i2bytearray 3 = [3] := by rw [i2bytearray, h1]; decide
  simp [canonicalDumps, canonicalSerialize, h2, s2varstring, ascii, natToDec,
        natDigits, natDigitsF]

/-- **C6.** Whenever the parser inserts a completed value into the tuple
under construction with a pending Unicode key, the key actually stored is
U+FEFF (65279) prepended to that string (simple.py 580-585), and such a
key is never Python-`==` to any Bytes key (in particular not to the Bytes
key with the same underlying octets), so the two produce distinct Tuple
entries. -/
theorem c6_unicode_key_feff :
    ∀ (st : PState) (v : Value) (n : Option SToken) (s : List ℕ),
      st.key = some (.unicode s) →
      (finishValue st v n).cur =
        pyInsert st.cur (.unicode (0xFEFF :: s)) (applyQuotes st.quotes v) ∧
      (∀ b : List ℕ, pyEq (.bytes b) (.unicode (0xFEFF :: s)) = false ∧
                     pyEq (.unicode (0xFEFF :: s)) (.bytes b) = false) := by
  intro st v n s h
  constructor
  · simp [finishValue, h, feffAdjust]
  · intro b
    constructor
    · show pyEqF 2 _ _ = false
      simp only [pyEqF]
      by_cases hb : b = 65279 :: s
      · subst hb
        simp
      · simp [hb]
    · show pyEqF 2 _ _ = false
      simp only [pyEqF]
      by_cases hb : b = 65279 :: s
      · subst hb
        simp
      · simp
        intro h
        exact absurd h hb

/-- Witness for C6: a concrete parser state with pending Unicode key
`"a"`; inserting Integer 5 stores it under the key U+FEFF `a`. -/
theorem c6_unicode_key_feff_witness :
    (⟨some (.unicode [97]), 0, [], [], [], [], []⟩ : PState).key =
      some (.unicode [97]) ∧
    (finishValue ⟨some (.unicode [97]), 0, [], [], [], [], []⟩
        (.integer 5) none).cur =
      pyInsert [] (.unicode (0xFEFF :: [97])) (applyQuotes [] (.integer 5)) :=
  ⟨rfl, (c6_unicode_key_feff ⟨some (.unicode [97]), 0, [], [], [], [], []⟩
    (.integer 5) none [97] rfl).1⟩

/-! ### Two's-complement correctness of the canonical Integer encoding -/

/-- Big-endian base-256 value of a byte string. -/
def beNat (bs : List ℕ) : ℕ := bs.foldl (fun a b => 256 * a + b) 0

/-- The signed integer a byte string denotes in big-endian
two's-complement: its unsigned value, minus `2^(8·len)` when the top bit
of the first byte is set. -/
def tcVal (bs : List ℕ) : ℤ :=
  (beNat bs : ℤ) - (if 128 ≤ bs.headI then (2 : ℤ) ^ (8 * bs.length) else 0)

theorem beNat_foldl (a : ℕ) (t : List ℕ) :
    t.foldl (fun x b => 256 * x + b) a = a * 256 ^ t.length + beNat t := by
  induction t generalizing a with
  | nil => simp [beNat]
  | cons h t ih =>
      simp only [List.foldl_cons, List.length_cons, beNat]
      rw [ih (256 * a + h), ih (256 * 0 + h)]
      ring

theorem beNat_cons (h : ℕ) (t : List ℕ) :
    beNat (h :: t) = h * 256 ^ t.length + beNat t := by
  show List.foldl _ _ (h :: t) = _
  rw [List.foldl_cons, beNat_foldl]
  ring_nf

theorem beNat_lt (bs : List ℕ) (h : ∀ b ∈ bs, b < 256) :
    beNat bs < 256 ^ bs.length := by
  induction bs with
  | nil => simp [beNat]
  | cons x t ih =>
      rw [beNat_cons]
      have hx : x < 256 := h x (by simp)
      have ht := ih (fun b hb => h b (by simp [hb]))
      have : x * 256 ^ t.length + beNat t < (x + 1) * 256 ^ t.length := by
        nlinarith
      calc x * 256 ^ t.length + beNat t < (x + 1) * 256 ^ t.length := this
        _ ≤ 256 * 256 ^ t.length := by
            have : x + 1 ≤ 256 := by omega
            exact Nat.mul_le_mul_right _ this
        _ = 256 ^ (t.length + 1) := by ring
        _ = 256 ^ (x :: t).length := by simp

theorem beNat_append_one (xs : List ℕ) (b : ℕ) :
    beNat (xs ++ [b]) = 256 * beNat xs + b := by
  show List.foldl _ _ _ = _
  rw [List.foldl_append]
  simp [beNat]

theorem natToBE_length (L m : ℕ) : (natToBE L m).length = L := by
  induction L generalizing m with
  | zero => simp [natToBE]
  | succ L ih => simp [natToBE, ih]

theorem natToBE_lt (L m : ℕ) : ∀ b ∈ natToBE L m, b < 256 := by
  induction L generalizing m with
  | zero => simp [natToBE]
  | succ L ih =>
      intro b hb
      simp only [natToBE, List.mem_append, List.mem_singleton] at hb
      rcases hb with hb | hb
      · exact ih (m / 256) b hb
      · omega

theorem beNat_natToBE (L m : ℕ) (h : m < 256 ^ L) :
    beNat (natToBE L m) = m := by
  induction L generalizing m with
  | zero =>
      simp only [natToBE, beNat, List.foldl_nil]
      have : m = 0 := by simpa using h
      omega
  | succ L ih =>
      simp only [natToBE]
      rw [beNat_append_one, ih]
      · omega
      · have h256 : 0 < 256 := by norm_num
        rw [Nat.div_lt_iff_lt_mul h256]
        calc m < 256 ^ (L + 1) := h
          _ = 256 ^ L * 256 := by ring

theorem natToBE_headI (L m : ℕ) (hL : 0 < L) (h : m < 256 ^ L) :
    (natToBE L m).headI = m / 256 ^ (L - 1) := by
  induction L generalizing m with
  | zero => omega
  | succ L ih =>
      simp only [natToBE]
      rcases Nat.eq_zero_or_pos L with hL0 | hLpos
      · subst hL0
        simp only [natToBE, List.nil_append, List.headI]
        have : m < 256 := by simpa using h
        simp [Nat.mod_eq_of_lt this, Nat.div_one]
      · have hne : natToBE L (m / 256) ≠ [] := by
          intro hcon
          have := natToBE_length L (m / 256)
          rw [hcon] at this
          simp at this
          omega
        obtain ⟨x, xs, hx⟩ := List.exists_cons_of_ne_nil hne
        rw [hx, List.cons_append, List.headI_cons]
        have hh : (natToBE L (m / 256)).headI = x := by rw [hx]; rfl
        rw [← hh, ih (m / 256) hLpos]
        · rw [Nat.div_div_eq_div_mul]
          congr 1
          have e1 : L + 1 - 1 = (L - 1) + 1 := by omega
          rw [e1, pow_succ]
          ring
        · have h256 : 0 < 256 := by norm_num
          rw [Nat.div_lt_iff_lt_mul h256]
          calc m < 256 ^ (L + 1) := h
            _ = 256 ^ L * 256 := by ring

theorem two_pow_eight_mul (k : ℕ) : (256 : ℕ) ^ k = 2 ^ (8 * k) := by
  rw [pow_mul]
  norm_num

theorem two_pow_eight_mul_int (k : ℕ) : (256 : ℤ) ^ k = 2 ^ (8 * k) := by
  rw [pow_mul]
  norm_num

theorem i2bytearray_spec (n : ℤ) (hn : n ≠ 0) :
    tcVal (i2bytearray n) = n ∧ (∀ b ∈ i2bytearray n, b < 256) ∧
    (i2bytearray n).length = tcLen n := by
  obtain ⟨hL, hlo, hhi⟩ : tcFits n (tcLen n) := Nat.find_spec (tcFits_exists n)
  set L := tcLen n with hLdef
  have hpow : (0 : ℤ) < 2 ^ (8 * L) := by positivity
  have hmod_lo : 0 ≤ n % 2 ^ (8 * L) := Int.emod_nonneg n (ne_of_gt hpow)
  have hmod_hi : n % 2 ^ (8 * L) < 2 ^ (8 * L) := Int.emod_lt_of_pos n hpow
  set m := (n % (2 : ℤ) ^ (8 * L)).toNat with hmdef
  have hmnat : (m : ℤ) = n % 2 ^ (8 * L) := Int.toNat_of_nonneg hmod_lo
  have hmlt : m < 256 ^ L := by
    have : (m : ℤ) < (256 : ℤ) ^ L := by
      rw [two_pow_eight_mul_int, hmnat]; exact hmod_hi
    exact_mod_cast this
  have e1 : 8 * L - 1 = 8 * (L - 1) + 7 := by omega
  have hdouble : (2 : ℤ) ^ (8 * L) = 2 ^ (8 * L - 1) + 2 ^ (8 * L - 1) := by
    have e2 : 8 * L = (8 * L - 1) + 1 := by omega
    conv_lhs => rw [e2]
    rw [pow_succ]
    ring
  have hple : (2 : ℤ) ^ (8 * L - 1) ≤ 2 ^ (8 * L) := by
    have h0 : (0 : ℤ) < 2 ^ (8 * L - 1) := by positivity
    omega
  have hsplit : n % 2 ^ (8 * L) = if 0 ≤ n then n else n + 2 ^ (8 * L) := by
    split
    · rename_i hpos
      exact Int.emod_eq_of_lt hpos (lt_of_lt_of_le hhi hple)
    · rename_i hneg
      push_neg at hneg
      have h1 : (0 : ℤ) ≤ n + 2 ^ (8 * L) := by
        have : -(2 ^ (8 * L)) ≤ n := le_trans (by omega) hlo
        omega
      have h2 : n + 2 ^ (8 * L) < 2 ^ (8 * L) := by omega
      calc n % 2 ^ (8 * L) = (n + 2 ^ (8 * L) * 1) % 2 ^ (8 * L) := by
            rw [Int.add_mul_emod_self_left]
        _ = n + 2 ^ (8 * L) := by
            rw [mul_one]; exact Int.emod_eq_of_lt h1 h2
  have hlen : (natToBE L m).length = L := natToBE_length L m
  have hhead : (natToBE L m).headI = m / 256 ^ (L - 1) := natToBE_headI L m hL hmlt
  have hp256 : (0 : ℕ) < 256 ^ (L - 1) := by positivity
  have hsplit128 : (2 : ℕ) ^ (8 * L - 1) = 128 * 256 ^ (L - 1) := by
    rw [e1, pow_add, two_pow_eight_mul]
    norm_num
    ring
  have hcastpow : ((2 : ℕ) ^ (8 * L - 1) : ℤ) = (2 : ℤ) ^ (8 * L - 1) := by
    push_cast
    ring
  have hheadiff : 128 ≤ (natToBE L m).headI ↔ n < 0 := by
    rw [hhead]
    by_cases hs : 0 ≤ n
    · have hmn : (m : ℤ) = n := by rw [hmnat, hsplit, if_pos hs]
      have hmup : m < 2 ^ (8 * L - 1) := by
        have : (m : ℤ) < 2 ^ (8 * L - 1) := by rw [hmn]; exact hhi
        rw [← hcastpow] at this
        exact_mod_cast this
      have hdiv : m / 256 ^ (L - 1) < 128 := by
        rw [Nat.div_lt_iff_lt_mul hp256]
        calc m < 2 ^ (8 * L - 1) := hmup
          _ = 128 * 256 ^ (L - 1) := hsplit128
      constructor
      · intro hc; omega
      · intro hc; omega
    · push_neg at hs
      have hmn : (m : ℤ) = n + 2 ^ (8 * L) := by
        rw [hmnat, hsplit, if_neg (by omega)]
      have hmlow : 2 ^ (8 * L - 1) ≤ m := by
        have : (2 : ℤ) ^ (8 * L - 1) ≤ (m : ℤ) := by
          rw [hmn]
          omega
        rw [← hcastpow] at this
        exact_mod_cast this
      have hdiv : 128 ≤ m / 256 ^ (L - 1) := by
        rw [Nat.le_div_iff_mul_le hp256]
        calc 128 * 256 ^ (L - 1) = 2 ^ (8 * L - 1) := hsplit128.symm
          _ ≤ m := hmlow
      constructor
      · intro _; exact hs
      · intro _; exact hdiv
  refine ⟨?_, natToBE_lt L m, hlen⟩
  show tcVal (natToBE L m) = n
  rw [tcVal, hlen, beNat_natToBE L m hmlt]
  by_cases hs : 0 ≤ n
  · rw [if_neg (by rw [hheadiff]; omega)]
    have : (m : ℤ) = n := by rw [hmnat, hsplit, if_pos hs]
    omega
  · push_neg at hs
    rw [if_pos (hheadiff.mpr hs)]
    have : (m : ℤ) = n + 2 ^ (8 * L) := by
      rw [hmnat, hsplit, if_neg (by omega)]
    omega

theorem tcVal_fits (bs : List ℕ) (hne : bs ≠ []) (hb : ∀ b ∈ bs, b < 256) :
    tcFits (tcVal bs) bs.length := by
  obtain ⟨h, t, rfl⟩ := List.exists_cons_of_ne_nil hne
  have hh : h < 256 := hb h (by simp)
  have hbt : ∀ b ∈ t, b < 256 := fun b hb' => hb b (by simp [hb'])
  have hbe : beNat (h :: t) = h * 256 ^ t.length + beNat t := beNat_cons h t
  have hlt : beNat t < 256 ^ t.length := beNat_lt t hbt
  have hL : (h :: t).length = t.length + 1 := by simp
  have e1 : 8 * (t.length + 1) - 1 = 8 * t.length + 7 := by omega
  have hs128 : (2 : ℤ) ^ (8 * (t.length + 1) - 1) = 128 * 256 ^ t.length := by
    rw [e1, pow_add, two_pow_eight_mul_int]
    norm_num
    ring
  have hsfull : (2 : ℤ) ^ (8 * (t.length + 1)) = 256 * 256 ^ t.length := by
    have e2 : 8 * (t.length + 1) = 8 * t.length + 8 := by ring
    rw [e2, pow_add, two_pow_eight_mul_int]
    norm_num
    ring
  have hpos : (0 : ℤ) < (256 : ℤ) ^ t.length := by positivity
  have hbei : (beNat t : ℤ) < 256 ^ t.length := by exact_mod_cast hlt
  have hbe0 : (0 : ℤ) ≤ (beNat t : ℤ) := by positivity
  have hhi : (h : ℤ) < 256 := by exact_mod_cast hh
  have hh0 : (0 : ℤ) ≤ (h : ℤ) := by positivity
  refine ⟨by simp, ?_, ?_⟩
  · rw [tcVal, hL]
    simp only [List.headI_cons, hbe]
    by_cases hc : 128 ≤ h
    · rw [if_pos hc, hs128, hsfull]
      have hc1 : (128 : ℤ) ≤ (h : ℤ) := by exact_mod_cast hc
      push_cast
      nlinarith
    · rw [if_neg hc, hs128]
      push_cast
      nlinarith
  · rw [tcVal, hL]
    simp only [List.headI_cons, hbe]
    by_cases hc : 128 ≤ h
    · rw [if_pos hc, hs128, hsfull]
      have hc1 : (128 : ℤ) ≤ (h : ℤ) := by exact_mod_cast hc
      push_cast
      nlinarith
    · rw [if_neg hc, hs128]
      have hc1 : (h : ℤ) ≤ 127 := by
        have : h ≤ 127 := by omega
        exact_mod_cast this
      push_cast
      nlinarith

/-- **C3.** For every Integer `n`, the canonical codec serializes `n` as
the bracketed tuple `[7:integer <octets>]` where `<octets>` is the
length-prefixed octet-array that is empty for `n = 0` and otherwise is
`i2bytearray n`, a big-endian two's-complement encoding of `n` (its signed
value is `n`, every byte is below 256) of minimal length (no nonempty byte
string with a smaller length has two's-complement value `n`); in
particular `canonical.dumps(Integer(3))` is exactly the bytes
`[7:integer1:\x03]`. -/
theorem c3_canonical_integer :
    (∀ n : ℤ,
      canonicalDumps (.integer n) =
        .ok ([91] ++ ascii "7:integer" ++
             s2varstring (if n = 0 then [] else i2bytearray n) ++ [93])) ∧
    (∀ n : ℤ, n ≠ 0 →
      tcVal (i2bytearray n) = n ∧
      (∀ b ∈ i2bytearray n, b < 256) ∧
      (∀ bs : List ℕ, bs ≠ [] → (∀ b ∈ bs, b < 256) → tcVal bs = n →
        (i2bytearray n).length ≤ bs.length)) ∧
    canonicalDumps (.integer 3) =
      .ok [91, 55, 58, 105, 110, 116, 101, 103, 101, 114, 49, 58, 3, 93] := by
  refine ⟨?_, ?_, (c2_canonical_load_stub).2.1⟩
  · intro n
    have : s2varstring (ascii "integer") = ascii "7:integer" := by decide
    simp [canonicalDumps, canonicalSerialize, this]
  · intro n hn
    obtain ⟨hval, hbytes, hlen⟩ := i2bytearray_spec n hn
    refine ⟨hval, hbytes, ?_⟩
    intro bs hne hb hv
    have hfits : tcFits n bs.length := hv ▸ tcVal_fits bs hne hb
    rw [hlen]
    exact Nat.find_min' (tcFits_exists n) hfits

/-- Witness for C3: applying the theorem at `n = 3` discharges the
`n ≠ 0` hypothesis and yields the two's-complement value of the encoding
of 3. -/
theorem c3_canonical_integer_witness :
    (3 : ℤ) ≠ 0 ∧ tcVal (i2bytearray 3) = 3 :=
  ⟨by decide, (c3_canonical_integer.2.1 3 (by decide)).1⟩

/-! ### The sequence-close contiguity check (claim C7) -/

/-- The numeric value a Value contributes when compared with a Python
integer: Booleans count as 0/1, Integers as themselves, everything the
tokenizer/parser can put into a container key as nothing.  (Rationals also
compare numerically in Python, but no rational value can reach a parser
key: the tokenizer has no rational literals.) -/
def keyNum : Value → Option ℤ
  | .boolean b => some (if b then 1 else 0)
  | .integer n => some n
  | _ => none

/-- `keyNum` with default 0 (only used where `keyNum` is known `some`). -/
def knum (k : Value) : ℤ := (keyNum k).getD 0

/-- A value that is not a Rational (every value the parser can use as a
container key satisfies this). -/
def NonRat (k : Value) : Prop := ∀ p q : ℤ, k ≠ .rational p q

/-- The integer list `[0, 1, …, n-1]`. -/
def rangeInts (n : ℕ) : List ℤ := (List.range n).map Int.ofNat

/-- The keys of `t` are, up to Python numeric equality, exactly the
integers `0 … len-1`: the multiset of their numeric values is
`{0, …, len-1}`. -/
def NumPerm (t : List (Value × Value)) : Prop :=
  (t.map (fun e => keyNum e.1)).Perm ((rangeInts t.length).map some)

/-- The value stored under the (unique) key with numeric value `i`. -/
def numLookup (t : List (Value × Value)) (i : ℤ) : Value :=
  ((t.find? (fun e => keyNum e.1 == some i)).map (·.2)).getD .omega

theorem pyEq_keyNum_pair (a b : Value) (i : ℤ) (ha : NonRat a)
    (hb : keyNum b = some i) : pyEq a b = true ↔ keyNum a = some i := by
  cases b with
  | boolean c =>
      simp only [keyNum, Option.some.injEq] at hb
      cases a with
      | rational p q => exact absurd rfl (ha p q)
      | boolean d =>
          show pyEqF 2 _ _ = true ↔ _
          cases c <;> cases d <;> simp [pyEqF, pyNum, keyNum, ← hb] <;> try omega
      | integer m =>
          show pyEqF 2 _ _ = true ↔ _
          cases c <;> simp [pyEqF, pyNum, keyNum, ← hb] <;> try omega
      | omega => show pyEqF 2 _ _ = true ↔ _; simp [pyEqF, pyNum, keyNum]
      | bytes bs => show pyEqF _ _ _ = true ↔ _; simp [pyEq, pyEqF, pyNum, keyNum]
      | unicode cs => show pyEqF _ _ _ = true ↔ _; simp [pyEq, pyEqF, pyNum, keyNum]
      | vset xs => show pyEqF _ _ _ = true ↔ _; simp [pyEq, pyEqF, pyNum, keyNum]
      | tuple es => show pyEqF _ _ _ = true ↔ _; simp [pyEq, pyEqF, pyNum, keyNum]
      | sequence xs => show pyEqF _ _ _ = true ↔ _; simp [pyEq, pyEqF, pyNum, keyNum]
      | relation => show pyEqF 2 _ _ = true ↔ _; simp [pyEqF, pyNum, keyNum]
      | matrix => show pyEqF 2 _ _ = true ↔ _; simp [pyEqF, pyNum, keyNum]
      | procedure => show pyEqF 2 _ _ = true ↔ _; simp [pyEqF, pyNum, keyNum]
  | integer m =>
      simp only [keyNum, Option.some.injEq] at hb
      cases a with
      | rational p q => exact absurd rfl (ha p q)
      | boolean d =>
          show pyEqF 2 _ _ = true ↔ _
          simp [pyEqF, pyNum, keyNum, ← hb]
      | integer m' =>
          show pyEqF 2 _ _ = true ↔ _
          simp [pyEqF, pyNum, keyNum, ← hb]
      | omega => show pyEqF 2 _ _ = true ↔ _; simp [pyEqF, pyNum, keyNum]
      | bytes bs => show pyEqF _ _ _ = true ↔ _; simp [pyEq, pyEqF, pyNum, keyNum]
      | unicode cs => show pyEqF _ _ _ = true ↔ _; simp [pyEq, pyEqF, pyNum, keyNum]
      | vset xs => show pyEqF _ _ _ = true ↔ _; simp [pyEq, pyEqF, pyNum, keyNum]
      | tuple es => show pyEqF _ _ _ = true ↔ _; simp [pyEq, pyEqF, pyNum, keyNum]
      | sequence xs => show pyEqF _ _ _ = true ↔ _; simp [pyEq, pyEqF, pyNum, keyNum]
      | relation => show pyEqF 2 _ _ = true ↔ _; simp [pyEqF, pyNum, keyNum]
      | matrix => show pyEqF 2 _ _ = true ↔ _; simp [pyEqF, pyNum, keyNum]
      | procedure => show pyEqF 2 _ _ = true ↔ _; simp [pyEqF, pyNum, keyNum]
  | omega => simp [keyNum] at hb
  | rational p q => simp [keyNum] at hb
  | bytes bs => simp [keyNum] at hb
  | unicode cs => simp [keyNum] at hb
  | vset xs => simp [keyNum] at hb
  | tuple es => simp [keyNum] at hb
  | sequence xs => simp [keyNum] at hb
  | relation => simp [keyNum] at hb
  | matrix => simp [keyNum] at hb
  | procedure => simp [keyNum] at hb

theorem pyLe_num (a b : Value) (x y : ℤ) (hx : keyNum a = some x)
    (hy : keyNum b = some y) : pyLe a b ↔ x ≤ y := by
  have hcmp : pyCompare a b = compare x y := by
    cases a with
    | boolean c =>
        simp only [keyNum, Option.some.injEq] at hx
        cases b with
        | boolean d =>
            simp only [keyNum, Option.some.injEq] at hy
            show pyCompareF 2 _ _ = _
            simp [pyCompareF, pyNum, ← hx, ← hy]
        | integer m =>
            simp only [keyNum, Option.some.injEq] at hy
            show pyCompareF 2 _ _ = _
            simp [pyCompareF, pyNum, ← hx, ← hy]
        | omega => simp [keyNum] at hy
        | rational p q => simp [keyNum] at hy
        | bytes bs => simp [keyNum] at hy
        | unicode cs => simp [keyNum] at hy
        | vset xs => simp [keyNum] at hy
        | tuple es => simp [keyNum] at hy
        | sequence xs => simp [keyNum] at hy
        | relation => simp [keyNum] at hy
        | matrix => simp [keyNum] at hy
        | procedure => simp [keyNum] at hy
    | integer m' =>
        simp only [keyNum, Option.some.injEq] at hx
        cases b with
        | boolean d =>
            simp only [keyNum, Option.some.injEq] at hy
            show pyCompareF 2 _ _ = _
            simp [pyCompareF, pyNum, ← hx, ← hy]
        | integer m =>
            simp only [keyNum, Option.some.injEq] at hy
            show pyCompareF 2 _ _ = _
            simp [pyCompareF, pyNum, ← hx, ← hy]
        | omega => simp [keyNum] at hy
        | rational p q => simp [keyNum] at hy
        | bytes bs => simp [keyNum] at hy
        | unicode cs => simp [keyNum] at hy
        | vset xs => simp [keyNum] at hy
        | tuple es => simp [keyNum] at hy
        | sequence xs => simp [keyNum] at hy
        | relation => simp [keyNum] at hy
        | matrix => simp [keyNum] at hy
        | procedure => simp [keyNum] at hy
    | omega => simp [keyNum] at hx
    | rational p q => simp [keyNum] at hx
    | bytes bs => simp [keyNum] at hx
    | unicode cs => simp [keyNum] at hx
    | vset xs => simp [keyNum] at hx
    | tuple es => simp [keyNum] at hx
    | sequence xs => simp [keyNum] at hx
    | relation => simp [keyNum] at hx
    | matrix => simp [keyNum] at hx
    | procedure => simp [keyNum] at hx
  rw [pyLe, hcmp]
  constructor
  · intro h
    by_contra hlt
    push_neg at hlt
    exact h (compare_gt_iff_gt.mpr hlt)
  · intro h hc
    exact absurd (compare_gt_iff_gt.mp hc) (not_lt.mpr h)

/-- All elements of a list have a numeric key value. -/
def KN (l : List Value) : Prop := ∀ k ∈ l, (keyNum k).isSome

theorem KN_of_orderedInsert {l : List Value} {x : Value}
    (hl : KN l) (hx : (keyNum x).isSome) : KN (l.orderedInsert pyLe x) := by
  intro k hk
  rcases (List.mem_orderedInsert pyLe).mp hk with h | h
  · exact h ▸ hx
  · exact hl k h

theorem knum_eq_of_isSome {k : Value} (h : (keyNum k).isSome) :
    keyNum k = some (knum k) := by
  rw [knum]
  cases hk : keyNum k with
  | none => rw [hk] at h; simp at h
  | some v => simp

theorem sorted_orderedInsert_num (l : List Value) (x : Value)
    (hl : KN l) (hx : (keyNum x).isSome)
    (hs : l.Sorted (fun u v => knum u ≤ knum v)) :
    (l.orderedInsert pyLe x).Sorted (fun u v => knum u ≤ knum v) := by
  induction l with
  | nil => simp [List.orderedInsert]
  | cons y t ih =>
      have hy : (keyNum y).isSome := hl y (by simp)
      have ht : KN t := fun k hk => hl k (by simp [hk])
      rw [List.sorted_cons] at hs
      rw [List.orderedInsert]
      by_cases hc : pyLe x y
      · rw [if_pos hc]
        have hxy : knum x ≤ knum y :=
          (pyLe_num x y (knum x) (knum y) (knum_eq_of_isSome hx)
            (knum_eq_of_isSome hy)).mp hc
        rw [List.sorted_cons]
        refine ⟨?_, List.sorted_cons.mpr hs⟩
        intro b hb
        rcases List.mem_cons.mp hb with rfl | hb'
        · exact hxy
        · exact le_trans hxy (hs.1 b hb')
      · rw [if_neg hc]
        have hyx : knum y ≤ knum x := by
          have := (pyLe_num x y (knum x) (knum y) (knum_eq_of_isSome hx)
            (knum_eq_of_isSome hy))
          by_contra hlt
          push_neg at hlt
          exact hc (this.mpr (le_of_lt hlt))
        rw [List.sorted_cons]
        refine ⟨?_, ih ht hs.2⟩
        intro b hb
        rcases (List.mem_orderedInsert pyLe).mp hb with rfl | hb'
        · exact hyx
        · exact hs.1 b hb'

theorem sorted_insertionSort_num (l : List Value) (hl : KN l) :
    (l.insertionSort pyLe).Sorted (fun u v => knum u ≤ knum v) := by
  induction l with
  | nil => simp
  | cons x t ih =>
      have hx : (keyNum x).isSome := hl x (by simp)
      have ht : KN t := fun k hk => hl k (by simp [hk])
      rw [List.insertionSort]
      apply sorted_orderedInsert_num _ _ _ hx (ih ht)
      intro k hk
      exact ht k ((List.perm_insertionSort pyLe t).mem_iff.mp hk)

theorem pyListEq_of_knum_map : ∀ (l : List Value) (ms : List ℤ),
    KN l → l.map keyNum = ms.map some →
    pyListEq l (ms.map (fun i => Value.integer i)) = true := by
  intro l
  induction l with
  | nil =>
      intro ms _ hmap
      have : ms = [] := by
        cases ms with
        | nil => rfl
        | cons a t => simp at hmap
      subst this
      rfl
  | cons x t ih =>
      intro ms hkn hmap
      cases ms with
      | nil => simp at hmap
      | cons m mt =>
          simp only [List.map_cons, List.cons.injEq] at hmap
          have hx : pyEq x (.integer m) = true := by
            have hnr : NonRat x := by
              intro p q hq
              rw [hq] at hmap
              simp [keyNum] at hmap
            exact (pyEq_keyNum_pair x (.integer m) m hnr (by simp [keyNum])).mpr
              hmap.1
          have hrec := ih mt (fun k hk => hkn k (by simp [hk])) hmap.2
          rw [pyListEq] at hrec ⊢
          simp only [List.map_cons, List.zip_cons_cons, List.all_cons,
            List.length_cons, Bool.and_eq_true, decide_eq_true_eq] at hrec ⊢
          exact ⟨by omega, hx, hrec.2⟩

theorem knum_map_of_pyListEq : ∀ (l : List Value) (ms : List ℤ),
    (∀ k ∈ l, NonRat k) →
    pyListEq l (ms.map (fun i => Value.integer i)) = true →
    l.map keyNum = ms.map some := by
  intro l
  induction l with
  | nil =>
      intro ms _ h
      rw [pyListEq] at h
      simp only [Bool.and_eq_true, decide_eq_true_eq] at h
      have : ms = [] := by
        cases ms with
        | nil => rfl
        | cons a t => simp at h
      subst this
      rfl
  | cons x t ih =>
      intro ms hnr h
      rw [pyListEq] at h
      simp only [Bool.and_eq_true, decide_eq_true_eq] at h
      cases ms with
      | nil => simp at h
      | cons m mt =>
          simp only [List.map_cons, List.zip_cons_cons, List.all_cons,
            Bool.and_eq_true] at h
          have hx : keyNum x = some m :=
            (pyEq_keyNum_pair x (.integer m) m (hnr x (by simp))
              (by simp [keyNum])).mp h.2.1
          have hrec := ih mt (fun k hk => hnr k (by simp [hk])) ?_
          · simp [hx, hrec]
          · rw [pyListEq]
            simp only [Bool.and_eq_true, decide_eq_true_eq]
            have hlen : t.length = mt.length := by
              have := h.1
              simp at this
              omega
            exact ⟨by simp [hlen], h.2.2⟩

theorem find?_agree {α} (l : List α) (p q : α → Bool)
    (h : ∀ a ∈ l, p a = q a) : l.find? p = l.find? q := by
  induction l with
  | nil => rfl
  | cons x t ih =>
      have hx : p x = q x := h x (by simp)
      rw [List.find?_cons, List.find?_cons, hx,
          ih (fun a ha => h a (by simp [ha]))]

theorem keyNum_map_eq_some_map {l : List Value} (h : KN l) :
    l.map keyNum = (l.map knum).map some := by
  rw [List.map_map]
  apply List.map_congr_left
  intro k hk
  exact knum_eq_of_isSome (h k hk)

theorem rangeKeys_eq_map (n : ℕ) :
    rangeKeys n = (rangeInts n).map (fun i => Value.integer i) := by
  rw [rangeKeys, rangeInts, List.map_map]
  rfl

theorem rangeInts_sorted (n : ℕ) : (rangeInts n).Sorted (· ≤ ·) := by
  rw [rangeInts]
  refine List.pairwise_map.mpr ?_
  apply (List.sorted_le_range n).imp
  intro a b hab
  exact Int.ofNat_le.mpr hab

theorem numPerm_KN (t : List (Value × Value)) (hp : NumPerm t) :
    KN (t.map Prod.fst) := by
  intro k hk
  have hmapeq : t.map (fun e => keyNum e.1) = (t.map Prod.fst).map keyNum := by
    rw [List.map_map]
    rfl
  rw [NumPerm, hmapeq] at hp
  have h1 : keyNum k ∈ (t.map Prod.fst).map keyNum :=
    List.mem_map_of_mem keyNum hk
  have h2 := hp.mem_iff.mp h1
  obtain ⟨i, _, hi⟩ := List.mem_map.mp h2
  rw [← hi]
  rfl

/-- When the numeric key multiset is `{0, …, n-1}`, Python's `sorted` on the
keys produces them in the order of those numeric values `0, 1, …, n-1`. -/
theorem sortedKeys_knum_eq_range (t : List (Value × Value)) (hp : NumPerm t) :
    (sortedKeys t).map knum = rangeInts t.length := by
  have hmapeq : t.map (fun e => keyNum e.1) = (t.map Prod.fst).map keyNum := by
    rw [List.map_map]
    rfl
  have hperm : (sortedKeys t).Perm (t.map Prod.fst) :=
    List.perm_insertionSort pyLe (t.map Prod.fst)
  have hkn := numPerm_KN t hp
  rw [NumPerm, hmapeq] at hp
  have hsorted := sorted_insertionSort_num (t.map Prod.fst) hkn
  have hD : ((sortedKeys t).map knum).Sorted (· ≤ ·) :=
    List.Pairwise.map knum (fun a b h => h) hsorted
  have h3 := hp.map (fun o => o.getD (0 : ℤ))
  simp only [List.map_map] at h3
  have h5 : (rangeInts t.length).map
      ((fun o : Option ℤ => o.getD 0) ∘ some) = rangeInts t.length := by
    rw [show ((fun o : Option ℤ => o.getD 0) ∘ some) = id from rfl,
        List.map_id]
  have h2 : ((t.map Prod.fst).map knum).Perm (rangeInts t.length) := by
    rw [List.map_map, ← h5]
    exact h3
  exact List.eq_of_perm_of_sorted ((hperm.map knum).trans h2) hD
    (rangeInts_sorted t.length)

/-- The central characterization: the parser's contiguity check
`sorted(tuple_.keys()) == [Integer(x) for x in xrange(len(tuple_))]`
succeeds exactly when the keys' numeric values are a permutation of
`{0, …, n-1}` (for containers whose keys are not Rationals, which is every
container the parser can build). -/
theorem seq_check_iff_numPerm (t : List (Value × Value))
    (hnr : ∀ e ∈ t, NonRat e.1) :
    pyListEq (sortedKeys t) (rangeKeys t.length) = true ↔ NumPerm t := by
  have hmapeq : t.map (fun e => keyNum e.1) = (t.map Prod.fst).map keyNum := by
    rw [List.map_map]
    rfl
  have hperm : (sortedKeys t).Perm (t.map Prod.fst) :=
    List.perm_insertionSort pyLe (t.map Prod.fst)
  have hnrsorted : ∀ k ∈ sortedKeys t, NonRat k := by
    intro k hk
    obtain ⟨e, he, rfl⟩ := List.mem_map.mp (hperm.mem_iff.mp hk)
    exact hnr e he
  constructor
  · intro hchk
    rw [rangeKeys_eq_map] at hchk
    have hsortedmap : (sortedKeys t).map keyNum = (rangeInts t.length).map some :=
      knum_map_of_pyListEq (sortedKeys t) (rangeInts t.length) hnrsorted hchk
    rw [NumPerm, hmapeq]
    have h6 := (hperm.map keyNum).symm
    rw [hsortedmap] at h6
    exact h6
  · intro hp
    have hkn := numPerm_KN t hp
    have hknsorted : KN (sortedKeys t) := fun k hk => hkn k (hperm.mem_iff.mp hk)
    have hmap2 : (sortedKeys t).map keyNum = (rangeInts t.length).map some := by
      rw [keyNum_map_eq_some_map hknsorted, sortedKeys_knum_eq_range t hp]
    rw [rangeKeys_eq_map]
    exact pyListEq_of_knum_map (sortedKeys t) (rangeInts t.length) hknsorted hmap2

/-- Looking a key up with Python `==` finds the same entry as looking up by
numeric key value, for Rational-free keys. -/
theorem pyGet_eq_numLookup (t : List (Value × Value))
    (hnr : ∀ e ∈ t, NonRat e.1) (k : Value) (i : ℤ)
    (hk : keyNum k = some i) : pyGet t k = numLookup t i := by
  have hfa : t.find? (fun e => pyEq e.1 k)
      = t.find? (fun e => keyNum e.1 == some i) := by
    apply find?_agree
    intro e he
    rw [Bool.eq_iff_iff, beq_iff_eq]
    exact pyEq_keyNum_pair e.1 k i (hnr e he) hk
  rw [pyGet, pyLookup, numLookup, hfa]

/-- The Sequence the parser builds lists the values by ascending numeric
key value `0, 1, …, n-1`. -/
theorem seq_values_eq (t : List (Value × Value))
    (hnr : ∀ e ∈ t, NonRat e.1) (hp : NumPerm t) :
    (sortedKeys t).map (pyGet t) = (rangeInts t.length).map (numLookup t) := by
  have hperm : (sortedKeys t).Perm (t.map Prod.fst) :=
    List.perm_insertionSort pyLe (t.map Prod.fst)
  have hkn := numPerm_KN t hp
  have hknsorted : KN (sortedKeys t) := fun k hk => hkn k (hperm.mem_iff.mp hk)
  have h1 : (sortedKeys t).map (pyGet t)
      = ((sortedKeys t).map knum).map (numLookup t) := by
    rw [List.map_map]
    apply List.map_congr_left
    intro k hk
    exact pyGet_eq_numLookup t hnr k (knum k)
      (knum_eq_of_isSome (hknsorted k hk))
  rw [h1, sortedKeys_knum_eq_range t hp]

/-- **C7.** When a `)` closes a container `t` (simple.py 559-563): if the
multiset of the keys' numeric values is not exactly `{0, …, n-1}` the parser
raises `SyntaxError`, and when it is, the result is the Sequence of the
container's values in ascending (numeric) key order.  The claim as frozen is
slightly too strong: the code's check is Python list `==` against
`[Integer(0), …, Integer(n-1)]`, which Boolean keys also pass because
`True == 1` and `False == 0` in Python.  The last three conjuncts exhibit
this: the source text `(a #t:b)` — whose container keys are `Integer(0)`
and the Boolean `True`, not contiguous Integers — parses without error to
the Sequence `[b"a", b"b"]`, and `True` is not an Integer value. -/
theorem c7_sequence_close (t : List (Value × Value))
    (hnr : ∀ e ∈ t, NonRat e.1) :
    (¬ NumPerm t → seqCloseVal t = .error .seqContiguity) ∧
    (NumPerm t →
      seqCloseVal t
        = .ok (.sequence ((rangeInts t.length).map (numLookup t)))) ∧
    seqCloseVal [(.integer 0, .bytes [97]), (.boolean true, .bytes [98])]
      = .ok (.sequence [.bytes [97], .bytes [98]]) ∧
    simpleLoads (ascii "(a #t:b)")
      = .ok (.tuple [(.integer 0, .sequence [.bytes [97], .bytes [98]])]) ∧
    (∀ i : ℤ, Value.boolean true ≠ Value.integer i) := by
  refine ⟨?_, ?_, rfl, rfl, fun i h => Value.noConfusion h⟩
  · intro hnp
    rw [seqCloseVal]
    cases hchk : pyListEq (sortedKeys t) (rangeKeys t.length) with
    | false => rfl
    | true => exact absurd ((seq_check_iff_numPerm t hnr).mp hchk) hnp
  · intro hp
    have hchk := (seq_check_iff_numPerm t hnr).mpr hp
    rw [seqCloseVal]
    simp only [hchk, if_true]
    rw [seq_values_eq t hnr hp]

theorem c7_sequence_close_witness :
    (∀ e ∈ ([(Value.integer 0, Value.bytes [97])] : List (Value × Value)),
        NonRat e.1) ∧
    ((¬ NumPerm [(Value.integer 0, Value.bytes [97])] →
        seqCloseVal [(Value.integer 0, Value.bytes [97])]
          = .error .seqContiguity) ∧
      (NumPerm [(Value.integer 0, Value.bytes [97])] →
        seqCloseVal [(Value.integer 0, Value.bytes [97])]
          = .ok (.sequence
              ((rangeInts (List.length
                  [(Value.integer 0, Value.bytes [97])])).map
                (numLookup [(Value.integer 0, Value.bytes [97])])))) ∧
      seqCloseVal [(.integer 0, .bytes [97]), (.boolean true, .bytes [98])]
        = .ok (.sequence [.bytes [97], .bytes [98]]) ∧
      simpleLoads (ascii "(a #t:b)")
        = .ok (.tuple [(.integer 0,
            .sequence [.bytes [97], .bytes [98]])]) ∧
      (∀ i : ℤ, Value.boolean true ≠ Value.integer i)) := by
  have h : ∀ e ∈ ([(Value.integer 0, Value.bytes [97])] :
      List (Value × Value)), NonRat e.1 := by
    intro e he
    simp only [List.mem_singleton] at he
    subst he
    intro p q hq
    exact Value.noConfusion hq
  exact ⟨h, c7_sequence_close [(Value.integer 0, Value.bytes [97])] h⟩

/-! ### C8: bracket balance in the tokenizer -/

theorem tokGo_cons_ok {m : TkMode} {ps : List ℕ} {c : ℕ} {rest : List ℕ}
    {m' : TkMode} {ps' : List ℕ} {ts us : List SToken}
    (h : tokStep m ps c rest.head? = .ok (m', ps', ts))
    (hus : tokGo m' ps' rest = .ok us) :
    tokGo m ps (c :: rest) = .ok (ts ++ us) := by
  rw [tokGo, h]
  show (do
    let us' ← tokGo m' ps' rest
    Except.ok (ts ++ us')) = _
  rw [hus]
  rfl

theorem tokGo_cons_err {m : TkMode} {ps : List ℕ} {c : ℕ} {rest : List ℕ}
    {m' : TkMode} {ps' : List ℕ} {ts : List SToken} {e : TkErr}
    (h : tokStep m ps c rest.head? = .ok (m', ps', ts))
    (herr : tokGo m' ps' rest = .error e) :
    tokGo m ps (c :: rest) = .error e := by
  rw [tokGo, h]
  show (do
    let us' ← tokGo m' ps' rest
    Except.ok (ts ++ us')) = _
  rw [herr]
  rfl

theorem tokGo_cons_step_err {m : TkMode} {ps : List ℕ} {c : ℕ}
    {rest : List ℕ} {e : TkErr}
    (h : tokStep m ps c rest.head? = .error e) :
    tokGo m ps (c :: rest) = .error e := by
  rw [tokGo, h]
  rfl

theorem tokGo_glue {m : TkMode} {ps : List ℕ} {c : ℕ} {rest : List ℕ}
    {m' : TkMode} {ps' : List ℕ} {ts : List SToken}
    (h : tokStep m ps c rest.head? = .ok (m', ps', ts))
    (h2 : (∃ us, tokGo m' ps' rest = .ok us) ∨
      tokGo m' ps' rest = .error .noneLookahead) :
    (∃ us, tokGo m ps (c :: rest) = .ok us) ∨
      tokGo m ps (c :: rest) = .error .noneLookahead := by
  rcases h2 with ⟨us, hus⟩ | herr
  · exact Or.inl ⟨ts ++ us, tokGo_cons_ok h hus⟩
  · exact Or.inr (tokGo_cons_err h herr)

theorem idSub_not_paren {c : ℕ} (h : isIdSubsequent c = true) :
    isParenOpen c = false ∧ isParenClose c = false := by
  simp [isIdSubsequent, isIdInitial, isDigit] at h
  constructor <;> simp [isParenOpen, isParenClose] <;> omega

theorem pyWs_not_paren {c : ℕ} (h : isPyWs c = true) :
    isParenOpen c = false ∧ isParenClose c = false := by
  simp [isPyWs] at h
  constructor <;> simp [isParenOpen, isParenClose] <;> omega

theorem idInit_sub {c : ℕ} (h : isIdInitial c = true) :
    isIdSubsequent c = true := by
  simp [isIdSubsequent, h]

theorem digit_sub {c : ℕ} (h : isDigit c = true) :
    isIdSubsequent c = true := by
  simp [isIdSubsequent, h]

theorem intInit_sub {c : ℕ} (h : isIntegerInitial c = true) :
    isIdSubsequent c = true := by
  simp only [isIntegerInitial, Bool.or_eq_true, decide_eq_true_eq] at h
  rcases h with (h | h) | h
  · exact digit_sub h
  · subst h; rfl
  · subst h; rfl

theorem specBalanced_cons (ps : List ℕ) (c : ℕ) (s : List ℕ) :
    specBalanced ps (c :: s) =
      if isParenOpen c then specBalanced (c :: ps) s
      else if isParenClose c then
        match ps with
        | [] => false
        | p :: t => p = parenMatch c && specBalanced t s
      else specBalanced ps s := rfl

theorem specBalanced_skip {ps : List ℕ} {c : ℕ} {s : List ℕ}
    (ho : isParenOpen c = false) (hc : isParenClose c = false) :
    specBalanced ps (c :: s) = specBalanced ps s := by
  rw [specBalanced_cons]
  simp [ho, hc]

/-- The SYMBOL state never errors, never touches the bracket stack, and
re-establishes `modeTame` for the rest of the input. -/
theorem symbolFill_tame (v : List ℕ) (ps : List ℕ) (rest : List ℕ) :
    ∃ m' ts, symbolFill v false ps rest.head? = .ok (m', ps, ts) ∧
      modeTame m' rest := by
  cases hn : rest.head? with
  | none => exact ⟨.initial, [.lit (.bytes (utf8Str v))], rfl, trivial⟩
  | some nc =>
      by_cases hcond : ¬isPyWs nc = true ∧ isIdSubsequent nc = true
      · refine ⟨.symbol (v ++ [nc]), [], ?_, ?_⟩
        · simp only [symbolFill]
          rw [if_pos hcond]
          rfl
        · cases rest with
          | nil => simp at hn
          | cons d r2 =>
              simp only [List.head?_cons, Option.some.injEq] at hn
              subst hn
              exact ⟨d, r2, rfl, by simpa using hcond.1, hcond.2⟩
      · refine ⟨.initial, [.lit (.bytes (utf8Str v))], ?_, trivial⟩
        simp only [symbolFill]
        rw [if_neg hcond]
        rfl

/-- The NUMBER state never errors, never touches the bracket stack, and
re-establishes `modeTame` for the rest of the input. -/
theorem numberFill_tame (v : List ℕ) (ps : List ℕ) (rest : List ℕ) :
    ∃ m' ts, numberFill v ps rest.head? = .ok (m', ps, ts) ∧
      modeTame m' rest := by
  cases hn : rest.head? with
  | none => exact ⟨.initial, [.lit (.integer (strToInt v))], rfl, trivial⟩
  | some nc =>
      by_cases hcond : ¬isPyWs nc = true ∧ isDigit nc = true
      · refine ⟨.number (v ++ [nc]), [], ?_, ?_⟩
        · simp only [numberFill]
          rw [if_pos hcond]
        · cases rest with
          | nil => simp at hn
          | cons d r2 =>
              simp only [List.head?_cons, Option.some.injEq] at hn
              subst hn
              exact ⟨d, r2, rfl, by simpa using hcond.1, hcond.2⟩
      · refine ⟨.initial, [.lit (.integer (strToInt v))], ?_, trivial⟩
        simp only [numberFill]
        rw [if_neg hcond]

/-- Main invariant for C8's positive half: on tame input (no quote
openers, `#` or `;`), from a tame mode and a stack on which the remaining
input is balanced, the tokenizer finishes without a bracket error — it
returns tokens, or raises only the `TypeError` for a bare `+`/`-` at end
of input. -/
theorem tokGo_tame : ∀ (s : List ℕ) (m : TkMode) (ps : List ℕ),
    s.all tameChar = true → modeTame m s → specBalanced ps s = true →
    (∃ ts, tokGo m ps s = .ok ts) ∨ tokGo m ps s = .error .noneLookahead := by
  intro s
  induction s with
  | nil =>
      intro m ps _ hmode hbal
      have hps : ps = [] := by
        rw [show specBalanced ps [] = ps.isEmpty from rfl] at hbal
        simpa using hbal
      subst hps
      cases m with
      | initial => exact Or.inl ⟨[], rfl⟩
      | symbol v => simp [modeTame] at hmode
      | number v => simp [modeTame] at hmode
      | comment b => simp [modeTame] at hmode
      | constant v => simp [modeTame] at hmode
      | str v k i => simp [modeTame] at hmode
  | cons c rest ih =>
      intro m ps htame hmode hbal
      obtain ⟨htcc, htr⟩ : tameChar c = true ∧ rest.all tameChar = true := by
        simpa [List.all_cons] using htame
      obtain ⟨⟨huni, h35⟩, h59⟩ :
          (isUniOpen c = false ∧ ¬c = 35) ∧ ¬c = 59 := by
        simpa [tameChar] using htcc
      cases m with
      | comment b => simp [modeTame] at hmode
      | constant v => simp [modeTame] at hmode
      | str v k i => simp [modeTame] at hmode
      | symbol v =>
          obtain ⟨c', r', heq, hws, hsub⟩ := hmode
          injection heq with ha hb
          subst ha
          subst hb
          have hnp := idSub_not_paren hsub
          have hbal' : specBalanced ps rest = true := by
            rwa [specBalanced_skip hnp.1 hnp.2] at hbal
          obtain ⟨m', ts, hstep, hmode'⟩ := symbolFill_tame v ps rest
          exact tokGo_glue (show tokStep (.symbol v) ps c rest.head?
            = .ok (m', ps, ts) from hstep) (ih m' ps htr hmode' hbal')
      | number v =>
          obtain ⟨c', r', heq, hws, hdig⟩ := hmode
          injection heq with ha hb
          subst ha
          subst hb
          have hnp := idSub_not_paren (digit_sub hdig)
          have hbal' : specBalanced ps rest = true := by
            rwa [specBalanced_skip hnp.1 hnp.2] at hbal
          obtain ⟨m', ts, hstep, hmode'⟩ := numberFill_tame v ps rest
          exact tokGo_glue (show tokStep (.number v) ps c rest.head?
            = .ok (m', ps, ts) from hstep) (ih m' ps htr hmode' hbal')
      | initial =>
          by_cases hws : isPyWs c = true
          · have hnp := pyWs_not_paren hws
            have hstep : tokStep .initial ps c rest.head?
                = .ok (.initial, ps, []) := by
              simp [tokStep, hws]
            exact tokGo_glue hstep (ih .initial ps htr trivial
              (by rwa [specBalanced_skip hnp.1 hnp.2] at hbal))
          · by_cases h58 : c = 58
            · subst h58
              exact tokGo_glue (show tokStep .initial ps 58 rest.head?
                  = .ok (.initial, ps, [.syn .assoc]) from rfl)
                (ih .initial ps htr trivial
                  (by rwa [specBalanced_skip (by decide) (by decide)] at hbal))
            · by_cases h39 : c = 39
              · subst h39
                exact tokGo_glue (show tokStep .initial ps 39 rest.head?
                    = .ok (.initial, ps, [.syn .quote]) from rfl)
                  (ih .initial ps htr trivial
                    (by rwa [specBalanced_skip (by decide) (by decide)]
                      at hbal))
              · by_cases h44 : c = 44
                · subst h44
                  exact tokGo_glue
                    (show tokStep .initial ps 44 rest.head?
                      = .ok (.initial, ps, [.syn .unquote]) from rfl)
                    (ih .initial ps htr trivial
                      (by rwa [specBalanced_skip (by decide) (by decide)]
                        at hbal))
                · by_cases h96 : c = 96
                  · subst h96
                    exact tokGo_glue
                      (show tokStep .initial ps 96 rest.head?
                        = .ok (.initial, ps, [.syn .unquoteSplice]) from rfl)
                      (ih .initial ps htr trivial
                        (by rwa [specBalanced_skip (by decide) (by decide)]
                          at hbal))
                  · by_cases hpo : isParenOpen c = true
                    · have hstep : tokStep .initial ps c rest.head?
                          = .ok (.initial, c :: ps, [.syn (openTok c)]) := by
                        simp [tokStep, hws, h58, h39, h44, h96, hpo]
                      have hbal' : specBalanced (c :: ps) rest = true := by
                        rw [specBalanced_cons] at hbal
                        simpa [hpo] using hbal
                      exact tokGo_glue hstep
                        (ih .initial (c :: ps) htr trivial hbal')
                    · by_cases hpc : isParenClose c = true
                      · cases ps with
                        | nil =>
                            rw [specBalanced_cons] at hbal
                            simp [hpo, hpc] at hbal
                        | cons p t =>
                            rw [specBalanced_cons] at hbal
                            simp [hpo, hpc] at hbal
                            obtain ⟨hpm, hbal'⟩ := hbal
                            have hstep : tokStep .initial (p :: t) c
                                rest.head?
                                = .ok (.initial, t, [.syn (closeTok c)]) := by
                              simp [tokStep, hws, h58, h39, h44, h96, hpo,
                                hpc, hpm]
                            exact tokGo_glue hstep
                              (ih .initial t htr trivial hbal')
                      · have hbal' : specBalanced ps rest = true := by
                          rwa [specBalanced_skip
                            (Bool.not_eq_true _ ▸ hpo)
                            (Bool.not_eq_true _ ▸ hpc)] at hbal
                        by_cases hid : isIdInitial c = true
                        · by_cases hint : isIntegerInitial c = true
                          · cases hn : rest.head? with
                            | none =>
                                refine Or.inr (tokGo_cons_step_err ?_)
                                rw [hn]
                                simp [tokStep, hws, h58, h39, h44, h96,
                                  hpo, hpc, huni, h35, h59, hid, hint]
                            | some nc =>
                                by_cases hdig : isDigit nc = true
                                · obtain ⟨m', ts, hstepN, hmode'⟩ :=
                                    numberFill_tame [c] ps rest
                                  have hstep : tokStep .initial ps c
                                      rest.head? = .ok (m', ps, ts) := by
                                    rw [hn] at hstepN ⊢
                                    rw [← hstepN]
                                    simp [tokStep, tokRest, hws, h58, h39,
                                      h44, h96, hpo, hpc, huni, h35, h59,
                                      hid, hint, hdig]
                                  exact tokGo_glue hstep
                                    (ih m' ps htr hmode' hbal')
                                · obtain ⟨m', ts, hstepS, hmode'⟩ :=
                                    symbolFill_tame [c] ps rest
                                  have hstep : tokStep .initial ps c
                                      rest.head? = .ok (m', ps, ts) := by
                                    rw [hn] at hstepS ⊢
                                    rw [← hstepS]
                                    simp [tokStep, tokRest, hws, h58, h39,
                                      h44, h96, hpo, hpc, huni, h35, h59,
                                      hid, hint, hdig]
                                  exact tokGo_glue hstep
                                    (ih m' ps htr hmode' hbal')
                          · obtain ⟨m', ts, hstepS, hmode'⟩ :=
                              symbolFill_tame [c] ps rest
                            have hstep : tokStep .initial ps c rest.head?
                                = .ok (m', ps, ts) := by
                              rw [← hstepS]
                              simp [tokStep, tokRest, hws, h58, h39, h44,
                                h96, hpo, hpc, huni, h35, h59, hid, hint]
                            exact tokGo_glue hstep
                              (ih m' ps htr hmode' hbal')
                        · by_cases hint : isIntegerInitial c = true
                          · obtain ⟨m', ts, hstepN, hmode'⟩ :=
                              numberFill_tame [c] ps rest
                            have hstep : tokStep .initial ps c rest.head?
                                = .ok (m', ps, ts) := by
                              rw [← hstepN]
                              simp [tokStep, tokRest, hws, h58, h39, h44,
                                h96, hpo, hpc, huni, h35, h59, hid, hint]
                            exact tokGo_glue hstep
                              (ih m' ps htr hmode' hbal')
                          · have hstep : tokStep .initial ps c rest.head?
                                = .ok (.initial, ps, []) := by
                              simp [tokStep, hws, h58, h39, h44, h96, hpo,
                                hpc, huni, h35, h59, hid, hint]
                            exact tokGo_glue hstep
                              (ih .initial ps htr trivial hbal')

theorem parenClose_facts {c : ℕ} (h : isParenClose c = true) :
    isPyWs c = false ∧ ¬c = 58 ∧ ¬c = 39 ∧ ¬c = 44 ∧ ¬c = 96 ∧
      isParenOpen c = false := by
  simp only [isParenClose, Bool.or_eq_true, decide_eq_true_eq] at h
  rcases h with (h | h) | h <;> subst h <;>
    exact ⟨by decide, by decide, by decide, by decide, by decide, by decide⟩

/-- **C8.** The tokenizer's bracket discipline (simple.py 371-387 and
472-475): a closing bracket with an empty bracket stack raises
`TokenError` ("unmatched closing bracket"); a closing bracket whose family
does not match the most recently opened bracket raises `TokenError`
("mismatched brackets"); end of input with brackets still open raises
`TokenError` ("unmatched open bracket(s)").  Conversely, an input whose
brackets are balanced with matching families — taken over the raw
character stream, so restricted to inputs without string quotes, `#` or
`;`, whose every character the bracket scan sees literally — raises none
of these three errors. -/
theorem c8_bracket_errors (s ps : List ℕ) (c p : ℕ) (n : Option ℕ)
    (m : TkMode)
    (hc : isParenClose c = true) (hp : ¬p = parenMatch c) (hps : ps ≠ [])
    (htame : s.all tameChar = true) (hbal : specBalanced [] s = true) :
    tokStep .initial [] c n = .error .unmatchedClose ∧
    tokStep .initial (p :: ps) c n = .error .mismatchedParen ∧
    tokGo m ps [] = .error .eofUnmatched ∧
    simpleTokenize s ≠ .error .unmatchedClose ∧
    simpleTokenize s ≠ .error .mismatchedParen ∧
    simpleTokenize s ≠ .error .eofUnmatched := by
  obtain ⟨hws, h58, h39, h44, h96, hpo⟩ := parenClose_facts hc
  have hpos : (∃ ts, simpleTokenize s = .ok ts) ∨
      simpleTokenize s = .error .noneLookahead :=
    tokGo_tame s .initial [] htame trivial hbal
  have hne : ∀ e : TkErr, ¬e = .noneLookahead →
      simpleTokenize s ≠ .error e := by
    intro e he
    rcases hpos with ⟨ts, hts⟩ | herr
    · simp [hts]
    · rw [herr]
      intro hcontra
      injection hcontra with h
      exact he h.symm
  refine ⟨?_, ?_, ?_, hne _ (by decide), hne _ (by decide),
    hne _ (by decide)⟩
  · simp [tokStep, hws, h58, h39, h44, h96, hpo, hc]
  · simp [tokStep, hws, h58, h39, h44, h96, hpo, hc, hp]
  · cases m <;> simp [tokGo, hps]

theorem c8_bracket_errors_witness :
    (isParenClose 41 = true ∧ ¬(91 : ℕ) = parenMatch 41 ∧
      ([40] : List ℕ) ≠ [] ∧
      (ascii "[a (1) {c}]").all tameChar = true ∧
      specBalanced [] (ascii "[a (1) {c}]") = true) ∧
    (tokStep .initial [] 41 none = .error .unmatchedClose ∧
      tokStep .initial (91 :: [40]) 41 none = .error .mismatchedParen ∧
      tokGo .initial [40] [] = .error .eofUnmatched ∧
      simpleTokenize (ascii "[a (1) {c}]") ≠ .error .unmatchedClose ∧
      simpleTokenize (ascii "[a (1) {c}]") ≠ .error .mismatchedParen ∧
      simpleTokenize (ascii "[a (1) {c}]") ≠ .error .eofUnmatched) :=
  ⟨⟨by decide, by decide, by decide, by decide, by decide⟩,
    c8_bracket_errors (ascii "[a (1) {c}]") [40] 41 91 none .initial
      (by decide) (by decide) (by decide) (by decide) (by decide)⟩

/-! ### C1: round-trip machinery.  Tokenizer composition: a `StepsTo`
derivation records that the tokenizer consumes a prefix while emitting a
token list, so that runs on concatenated strings compose. -/

/-- The ways the serializer can follow one serialized value: end of input,
a space separator, a closing bracket, or the `:` after a named key.  The
tokenizer's one-character lookahead only ever sees one of these after a
complete atom. -/
def Boundary (r : List ℕ) : Prop :=
  r = [] ∨ (∃ r2, r = 32 :: r2) ∨ (∃ r2, r = 93 :: r2) ∨
  (∃ r2, r = 41 :: r2) ∨ (∃ r2, r = 58 :: r2)

/-- A run of tokenizer steps consuming `s` (with the input continuing as
`r`, visible to the lookahead), from mode `m`/stack `ps` to mode
`m'`/stack `ps'`, emitting `ts`. -/
inductive StepsTo : TkMode → List ℕ → List ℕ → List ℕ → TkMode → List ℕ →
    List SToken → Prop where
  | nil (m : TkMode) (ps : List ℕ) (r : List ℕ) : StepsTo m ps [] r m ps []
  | cons {m : TkMode} {ps : List ℕ} {c : ℕ} {s r : List ℕ} {m1 : TkMode}
      {ps1 : List ℕ} {ts1 : List SToken} {m' : TkMode} {ps' : List ℕ}
      {ts : List SToken}
      (h : tokStep m ps c ((s ++ r).head?) = .ok (m1, ps1, ts1))
      (hs : StepsTo m1 ps1 s r m' ps' ts) :
      StepsTo m ps (c :: s) r m' ps' (ts1 ++ ts)

/-- A `StepsTo` derivation determines the tokenizer's behaviour on the
concatenation: the tokens of the prefix, then whatever the rest yields. -/
theorem tokGo_split {m : TkMode} {ps s r : List ℕ} {m' : TkMode}
    {ps' : List ℕ} {ts : List SToken}
    (h : StepsTo m ps s r m' ps' ts) :
    tokGo m ps (s ++ r) = (do
      let us ← tokGo m' ps' r
      Except.ok (ts ++ us)) := by
  induction h with
  | nil m ps r =>
      show tokGo m ps r = _
      cases hT : tokGo m ps r with
      | ok us => rfl
      | error e => rfl
  | cons h hs ih =>
      rename_i m ps c s r m1 ps1 ts1 m' ps' ts
      rw [List.cons_append, tokGo, h]
      show (do
        let us' ← tokGo m1 ps1 (s ++ r)
        Except.ok (ts1 ++ us')) = _
      rw [ih]
      cases hT : tokGo m' ps' r with
      | ok us =>
          show Except.ok (ts1 ++ (ts ++ us)) = Except.ok (ts1 ++ ts ++ us)
          rw [List.append_assoc]
      | error e => rfl

/-- Consecutive runs compose. -/
theorem StepsTo.append : ∀ {m : TkMode} {ps s1 R : List ℕ} {m1 : TkMode}
    {ps1 : List ℕ} {ts1 : List SToken},
    StepsTo m ps s1 R m1 ps1 ts1 →
    ∀ {s2 r : List ℕ} {m2 : TkMode} {ps2 : List ℕ} {ts2 : List SToken},
    R = s2 ++ r → StepsTo m1 ps1 s2 r m2 ps2 ts2 →
    StepsTo m ps (s1 ++ s2) r m2 ps2 (ts1 ++ ts2) := by
  intro m ps s1 R m1 ps1 ts1 h1
  induction h1 with
  | nil m ps r' =>
      intro s2 r m2 ps2 ts2 hR h2
      subst hR
      simpa using h2
  | cons h hs ih =>
      intro s2 r m2 ps2 ts2 hR h2
      subst hR
      rename_i m ps c s m1 ps1 ts1 m' ps' ts
      rw [List.cons_append, List.append_assoc]
      refine StepsTo.cons ?_ (ih rfl h2)
      rw [List.append_assoc]
      exact h

theorem natDigitsF_bounds : ∀ (fuel n : ℕ), n ≤ fuel →
    (∀ d ∈ natDigitsF fuel n, d < 10) ∧ natDigitsF fuel n ≠ [] := by
  intro fuel
  induction fuel with
  | zero =>
      intro n hn
      have : n = 0 := by omega
      subst this
      exact ⟨by intro d hd; simp [natDigitsF] at hd; omega, by simp [natDigitsF]⟩
  | succ f ih =>
      intro n hn
      by_cases h10 : n < 10
      · refine ⟨?_, by simp [natDigitsF, h10]⟩
        intro d hd
        simp [natDigitsF, h10] at hd
        omega
      · have hrec := ih (n / 10) (by omega)
        refine ⟨?_, by simp [natDigitsF, h10]⟩
        intro d hd
        simp only [natDigitsF, if_neg h10, List.mem_append,
          List.mem_singleton] at hd
        rcases hd with hd | hd
        · exact hrec.1 d hd
        · omega

theorem digitsVal_append_one (xs : List ℕ) (d : ℕ) :
    digitsVal (xs ++ [d]) = 10 * digitsVal xs + (d - 48) := by
  rw [digitsVal, List.foldl_append]
  rfl

theorem digitsVal_natToDec : ∀ (fuel n : ℕ), n ≤ fuel →
    digitsVal ((natDigitsF fuel n).map (· + 48)) = n := by
  intro fuel
  induction fuel with
  | zero =>
      intro n hn
      have : n = 0 := by omega
      subst this
      rfl
  | succ f ih =>
      intro n hn
      by_cases h10 : n < 10
      · simp only [natDigitsF, if_pos h10, List.map_cons, List.map_nil]
        show digitsVal [n + 48] = n
        show 10 * 0 + (n + 48 - 48) = n
        omega
      · simp only [natDigitsF, if_neg h10, List.map_append, List.map_cons,
          List.map_nil]
        rw [digitsVal_append_one, ih (n / 10) (by omega)]
        omega

theorem digitsVal_natToDec' (n : ℕ) : digitsVal (natToDec n) = n :=
  digitsVal_natToDec n n le_rfl

theorem natToDec_shape (n : ℕ) :
    ∃ d ds, natToDec n = d :: ds ∧ 48 ≤ d ∧ d ≤ 57 ∧
      ∀ e ∈ ds, 48 ≤ e ∧ e ≤ 57 := by
  obtain ⟨hb, hne⟩ := natDigitsF_bounds n n le_rfl
  rw [natToDec, natDigits]
  cases hD : natDigitsF n n with
  | nil => exact absurd hD hne
  | cons d0 ds0 =>
      refine ⟨d0 + 48, ds0.map (· + 48), by simp, ?_, ?_, ?_⟩
      · omega
      · have := hb d0 (by rw [hD]; simp)
        omega
      · intro e he
        simp only [List.mem_map] at he
        obtain ⟨x, hx, rfl⟩ := he
        have := hb x (by rw [hD]; simp [hx])
        omega

theorem strToInt_nosign (d : ℕ) (ds : List ℕ) (h43 : ¬d = 43)
    (h45 : ¬d = 45) :
    strToInt (d :: ds) = (digitsVal (d :: ds) : ℤ) := by
  rw [strToInt.eq_def]
  split
  · rename_i heq
    injection heq with h1 _
    exact absurd h1 h43
  · rename_i heq
    injection heq with h1 _
    exact absurd h1 h45
  · rfl

theorem strToInt_natToDec (n : ℕ) : strToInt (natToDec n) = (n : ℤ) := by
  obtain ⟨d, ds, hD, hd1, _, _⟩ := natToDec_shape n
  rw [hD, strToInt_nosign d ds (by omega) (by omega), ← hD,
    digitsVal_natToDec']

theorem strToInt_negDec (n : ℕ) : strToInt (45 :: natToDec n) = -(n : ℤ) := by
  show strToInt (45 :: natToDec n) = _
  rw [show strToInt (45 :: natToDec n) = -(digitsVal (natToDec n) : ℤ)
    from rfl, digitsVal_natToDec']

theorem utf8Str_ascii : ∀ (b : List ℕ), (∀ c ∈ b, c < 128) →
    utf8Str b = b := by
  intro b
  induction b with
  | nil => intro; rfl
  | cons c rest ih =>
      intro h
      rw [utf8Str, utf8Char, if_pos (by exact_mod_cast h c (by simp)),
        ih (fun d hd => h d (by simp [hd]))]
      rfl

theorem unescapeQuotes_id : ∀ (s : List ℕ), (∀ c ∈ s, ¬c = 92) →
    unescapeQuotes s = s := by
  intro s
  induction s with
  | nil => intro; rfl
  | cons c rest ih =>
      intro h
      have hc : ¬c = 92 := h c (by simp)
      rw [unescapeQuotes.eq_def]
      split
      · rename_i heq
        injection heq with h1 _
        exact absurd h1 hc
      · rename_i c' rest' heq
        injection heq with h1 h2
        subst h1
        subst h2
        rw [ih (fun d hd => h d (by simp [hd]))]
      · rename_i heq
        simp at heq

theorem idSub_not_ws {c : ℕ} (h : isIdSubsequent c = true) :
    isPyWs c = false := by
  simp [isIdSubsequent, isIdInitial, isDigit] at h
  simp [isPyWs]
  omega

theorem idInit_facts {c : ℕ} (h : isIdInitial c = true) :
    isPyWs c = false ∧ ¬c = 58 ∧ ¬c = 39 ∧ ¬c = 44 ∧ ¬c = 96 ∧
    isParenOpen c = false ∧ isParenClose c = false ∧ isUniOpen c = false ∧
    ¬c = 35 ∧ ¬c = 59 := by
  simp [isIdInitial] at h
  refine ⟨by simp [isPyWs]; omega, by omega, by omega, by omega, by omega,
    by simp [isParenOpen]; omega, by simp [isParenClose]; omega,
    by simp [isUniOpen]; omega, by omega, by omega⟩

theorem digit_facts {d : ℕ} (h : isDigit d = true) :
    isPyWs d = false ∧ ¬d = 58 ∧ ¬d = 39 ∧ ¬d = 44 ∧ ¬d = 96 ∧
    isParenOpen d = false ∧ isParenClose d = false ∧ isUniOpen d = false ∧
    ¬d = 35 ∧ ¬d = 59 ∧ isIdInitial d = false := by
  simp [isDigit] at h
  refine ⟨by simp [isPyWs]; omega, by omega, by omega, by omega, by omega,
    by simp [isParenOpen]; omega, by simp [isParenClose]; omega,
    by simp [isUniOpen]; omega, by omega, by omega,
    by simp [isIdInitial]; omega⟩

/-- The INITIAL dispatch falls through to the NUMBER block for a digit. -/
theorem digit_dispatch {d : ℕ} (hd : isDigit d = true) (ps : List ℕ)
    (n : Option ℕ) : tokStep .initial ps d n = numberFill [d] ps n := by
  obtain ⟨hws, h58, h39, h44, h96, hpo, hpc, huni, h35, h59, hid⟩ :=
    digit_facts hd
  have hint : isIntegerInitial d = true := by simp [isIntegerInitial, hd]
  simp [tokStep, tokRest, hws, h58, h39, h44, h96, hpo, hpc, huni, h35,
    h59, hid, hint]

/-- The INITIAL dispatch falls through to the SYMBOL block for a
non-sign identifier-initial character. -/
theorem symbol_dispatch {c : ℕ} (hc : isIdInitial c = true)
    (hint : isIntegerInitial c = false) (ps : List ℕ) (n : Option ℕ) :
    tokStep .initial ps c n = symbolFill [c] false ps n := by
  obtain ⟨hws, h58, h39, h44, h96, hpo, hpc, huni, h35, h59⟩ :=
    idInit_facts hc
  simp [tokStep, tokRest, hws, h58, h39, h44, h96, hpo, hpc, huni, h35,
    h59, hc, hint]

/-- On a boundary lookahead the SYMBOL block yields its buffer. -/
theorem symbolFill_yield (v : List ℕ) (ps r : List ℕ) (hr : Boundary r) :
    symbolFill v false ps r.head?
      = .ok (.initial, ps, [.lit (.bytes (utf8Str v))]) := by
  rcases hr with rfl | ⟨r2, rfl⟩ | ⟨r2, rfl⟩ | ⟨r2, rfl⟩ | ⟨r2, rfl⟩ <;> rfl

/-- On a boundary lookahead the NUMBER block yields its buffer. -/
theorem numberFill_yield (v : List ℕ) (ps r : List ℕ) (hr : Boundary r) :
    numberFill v ps r.head?
      = .ok (.initial, ps, [.lit (.integer (strToInt v))]) := by
  rcases hr with rfl | ⟨r2, rfl⟩ | ⟨r2, rfl⟩ | ⟨r2, rfl⟩ | ⟨r2, rfl⟩ <;> rfl

/-- A run of the SYMBOL state over the remaining identifier characters:
the buffer always ends with the character being processed, and the token
carries the whole identifier. -/
theorem stepsTo_symbolRun : ∀ (s : List ℕ) (x : ℕ) (w ps r : List ℕ),
    (∀ c ∈ s, isIdSubsequent c = true) → Boundary r →
    StepsTo (.symbol w) ps (x :: s) r .initial ps
      [.lit (.bytes (utf8Str (w ++ s)))] := by
  intro s
  induction s with
  | nil =>
      intro x w ps r _ hr
      have hstep : tokStep (.symbol w) ps x ((([] : List ℕ) ++ r).head?)
          = .ok (.initial, ps, [.lit (.bytes (utf8Str w))]) := by
        show symbolFill w false ps r.head? = _
        exact symbolFill_yield w ps r hr
      have h := StepsTo.cons hstep (StepsTo.nil .initial ps r)
      simpa using h
  | cons d s2 ih =>
      intro x w ps r hs hr
      have hd : isIdSubsequent d = true := hs d (by simp)
      have hstep : tokStep (.symbol w) ps x (((d :: s2) ++ r).head?)
          = .ok (.symbol (w ++ [d]), ps, []) := by
        show symbolFill w false ps (some d) = _
        simp only [symbolFill]
        rw [if_pos ⟨by simp [idSub_not_ws hd], hd⟩]
        rfl
      have hrec := ih d (w ++ [d]) ps r (fun c hc => hs c (by simp [hc])) hr
      have h := StepsTo.cons hstep hrec
      simpa using h

/-- A run of the NUMBER state over the remaining digits. -/
theorem stepsTo_numberRun : ∀ (s : List ℕ) (x : ℕ) (w ps r : List ℕ),
    (∀ c ∈ s, isDigit c = true) → Boundary r →
    StepsTo (.number w) ps (x :: s) r .initial ps
      [.lit (.integer (strToInt (w ++ s)))] := by
  intro s
  induction s with
  | nil =>
      intro x w ps r _ hr
      have hstep : tokStep (.number w) ps x ((([] : List ℕ) ++ r).head?)
          = .ok (.initial, ps, [.lit (.integer (strToInt w))]) := by
        show numberFill w ps r.head? = _
        exact numberFill_yield w ps r hr
      have h := StepsTo.cons hstep (StepsTo.nil .initial ps r)
      simpa using h
  | cons d s2 ih =>
      intro x w ps r hs hr
      have hd : isDigit d = true := hs d (by simp)
      have hstep : tokStep (.number w) ps x (((d :: s2) ++ r).head?)
          = .ok (.number (w ++ [d]), ps, []) := by
        show numberFill w ps (some d) = _
        simp only [numberFill]
        rw [if_pos ⟨by simp [(digit_facts hd).1], hd⟩]
      have hrec := ih d (w ++ [d]) ps r (fun c hc => hs c (by simp [hc])) hr
      have h := StepsTo.cons hstep hrec
      simpa using h

theorem escapeQuotes_cons_ne (c : ℕ) (s : List ℕ) (hc : ¬c = 34) :
    escapeQuotes (c :: s) = c :: escapeQuotes s := by
  rw [escapeQuotes.eq_def]
  split
  · rename_i heq
    injection heq with h1 _
    exact absurd h1 hc
  · rename_i c' rest' heq
    injection heq with h1 h2
    subst h1
    subst h2
    rfl
  · rename_i heq
    simp at heq

theorem uniMapHas_34 {c : ℕ} (hc : ¬c = 34) : uniMapHas c 34 = false := by
  simp [uniMapHas, hc]

/-- A run of the UNICODE string state over the escaped content plus the
closing quote: escape backslashes are dropped, escaped quotes are kept,
and the token carries the accumulated content. -/
theorem stepsTo_strRun : ∀ (s : List ℕ) (acc ps r : List ℕ),
    (∀ c ∈ s, ¬c = 92) →
    StepsTo (.str acc 0 34) ps (escapeQuotes s ++ [34]) r .initial ps
      [.lit (.unicode (unescapeQuotes (acc ++ s)))] := by
  intro s
  induction s with
  | nil =>
      intro acc ps r _
      have hstep : tokStep (.str acc 0 34) ps 34 ((([] : List ℕ) ++ r).head?)
          = .ok (.initial, ps, [.lit (.unicode (unescapeQuotes acc))]) := by
        show strStep acc 0 34 ps 34 r.head? = _
        rfl
      have h := StepsTo.cons hstep (StepsTo.nil .initial ps r)
      simpa using h
  | cons c s2 ih =>
      intro acc ps r h
      have hc92 : ¬c = 92 := h c (by simp)
      have hrest : ∀ d ∈ s2, ¬d = 92 := fun d hd => h d (by simp [hd])
      by_cases hc34 : c = 34
      · subst hc34
        rw [show escapeQuotes (34 :: s2) = 92 :: 34 :: escapeQuotes s2
          from rfl]
        have h1 : tokStep (.str acc 0 34) ps 92
            (((34 :: (escapeQuotes s2 ++ [34])) ++ r).head?)
            = .ok (.str acc 1 34, ps, []) := by
          show strStep acc 0 34 ps 92 (some 34) = _
          rfl
        have h2 : tokStep (.str acc 1 34) ps 34
            (((escapeQuotes s2 ++ [34]) ++ r).head?)
            = .ok (.str (acc ++ [34]) 0 34, ps, []) := by
          show strStep acc 1 34 ps 34 _ = _
          rfl
        have hrec := ih (acc ++ [34]) ps r hrest
        have hchain := StepsTo.cons h1 (StepsTo.cons h2 hrec)
        simpa using hchain
      · rw [escapeQuotes_cons_ne c s2 hc34]
        have hstep : tokStep (.str acc 0 34) ps c
            (((escapeQuotes s2 ++ [34]) ++ r).head?)
            = .ok (.str (acc ++ [c]) 0 34, ps, []) := by
          show strStep acc 0 34 ps c _ = _
          rw [strStep.eq_def]
          rw [if_neg (fun hcontra => by
            have h2 := hcontra.2.1
            rw [uniMapHas_34 hc34] at h2
            exact absurd h2 (by simp))]
          simp [hc92]
        have hrec := ih (acc ++ [c]) ps r hrest
        have hchain := StepsTo.cons hstep hrec
        simpa using hchain


/-- Bytes values the serializer emits raw and the tokenizer reads back as
one SYMBOL token: identifier-shaped, and not mistakable for a number (a
leading sign must be followed by a non-digit character; a bare sign would
trip the lookahead `TypeError` at end of input). -/
def goodSymB : List ℕ → Bool
  | [] => false
  | c :: rest =>
      isIdInitial c && rest.all isIdSubsequent &&
      (!isIntegerInitial c ||
        (match rest with
         | [] => false
         | d :: _ => !isDigit d))

/-- The INITIAL dispatch falls through to the SYMBOL block for a sign
character whose lookahead is not a digit. -/
theorem sign_dispatch {c d : ℕ} (hc : isIdInitial c = true)
    (hint : isIntegerInitial c = true) (hd : isDigit d = false)
    (ps : List ℕ) :
    tokStep .initial ps c (some d) = symbolFill [c] false ps (some d) := by
  obtain ⟨hws, h58, h39, h44, h96, hpo, hpc, huni, h35, h59⟩ :=
    idInit_facts hc
  simp [tokStep, tokRest, hws, h58, h39, h44, h96, hpo, hpc, huni, h35,
    h59, hc, hint, hd]

/-- A good symbol lexes to exactly one Bytes literal token. -/
theorem stepsTo_symbol (b : List ℕ) (hb : goodSymB b = true)
    (ps r : List ℕ) (hr : Boundary r) :
    StepsTo .initial ps b r .initial ps [.lit (.bytes (utf8Str b))] := by
  cases b with
  | nil => simp [goodSymB] at hb
  | cons c rest =>
      simp only [goodSymB, Bool.and_eq_true] at hb
      have hc : isIdInitial c = true := hb.1.1
      have hallm : ∀ d ∈ rest, isIdSubsequent d = true := by
        intro d hd
        exact List.all_eq_true.mp hb.1.2 d hd
      by_cases hint : isIntegerInitial c = true
      · have hshape : ∃ d r2, rest = d :: r2 ∧ isDigit d = false := by
          have h2 := hb.2
          rw [Bool.or_eq_true] at h2
          rcases h2 with h2 | h2
          · rw [Bool.not_eq_true', hint] at h2
            exact absurd h2 (by simp)
          · cases rest with
            | nil => simp at h2
            | cons d r2 =>
                refine ⟨d, r2, rfl, ?_⟩
                simpa using h2
        obtain ⟨d, r2, rfl, hd⟩ := hshape
        have hd' : isIdSubsequent d = true := hallm d (by simp)
        have hstep : tokStep .initial ps c (((d :: r2) ++ r).head?)
            = .ok (.symbol [c, d], ps, []) := by
          show tokStep .initial ps c (some d) = _
          rw [sign_dispatch hc hint hd]
          simp only [symbolFill]
          rw [if_pos ⟨by simp [idSub_not_ws hd'], hd'⟩]
          rfl
        have hrun := stepsTo_symbolRun r2 d [c, d] ps r
          (fun e he => hallm e (by simp [he])) hr
        have h := StepsTo.cons hstep hrun
        simpa using h
      · have hint' : isIntegerInitial c = false := by
          simpa using hint
        cases rest with
        | nil =>
            have hstep : tokStep .initial ps c ((([] : List ℕ) ++ r).head?)
                = .ok (.initial, ps, [.lit (.bytes (utf8Str [c]))]) := by
              rw [symbol_dispatch hc hint']
              show symbolFill [c] false ps r.head? = _
              exact symbolFill_yield [c] ps r hr
            have h := StepsTo.cons hstep (StepsTo.nil .initial ps r)
            simpa using h
        | cons d r2 =>
            have hd' : isIdSubsequent d = true := hallm d (by simp)
            have hstep : tokStep .initial ps c (((d :: r2) ++ r).head?)
                = .ok (.symbol [c, d], ps, []) := by
              show tokStep .initial ps c (some d) = _
              rw [symbol_dispatch hc hint']
              simp only [symbolFill]
              rw [if_pos ⟨by simp [idSub_not_ws hd'], hd'⟩]
              rfl
            have hrun := stepsTo_symbolRun r2 d [c, d] ps r
              (fun e he => hallm e (by simp [he])) hr
            have h := StepsTo.cons hstep hrun
            simpa using h

/-- An integer's decimal notation lexes to exactly one Integer literal
token carrying the same integer. -/
theorem stepsTo_int (n : ℤ) (ps r : List ℕ) (hr : Boundary r) :
    StepsTo .initial ps (intToDec n) r .initial ps
      [.lit (.integer n)] := by
  by_cases hn : n < 0
  · rw [intToDec, if_pos hn]
    obtain ⟨d, ds, hD, hd1, hd2, hds⟩ := natToDec_shape (-n).toNat
    rw [hD]
    have hdd : isDigit d = true := by simp [isDigit]; omega
    have hstep : tokStep .initial ps 45 (((d :: ds) ++ r).head?)
        = .ok (.number [45, d], ps, []) := by
      show tokStep .initial ps 45 (some d) = _
      simp only [tokStep, tokRest, numberFill, hdd, (digit_facts hdd).1]
      rfl
    have hrun := stepsTo_numberRun ds d [45, d] ps r
      (fun e he => by have := hds e he; simp [isDigit]; omega) hr
    have h := StepsTo.cons hstep hrun
    have hval : strToInt ([45, d] ++ ds) = n := by
      rw [show ([45, d] : List ℕ) ++ ds = 45 :: natToDec (-n).toNat by
        simp [hD], strToInt_negDec]
      omega
    rw [hval] at h
    simpa using h
  · rw [intToDec, if_neg hn]
    obtain ⟨d, ds, hD, hd1, hd2, hds⟩ := natToDec_shape n.toNat
    rw [hD]
    have hdd : isDigit d = true := by simp [isDigit]; omega
    cases ds with
    | nil =>
        have hstep : tokStep .initial ps d ((([] : List ℕ) ++ r).head?)
            = .ok (.initial, ps, [.lit (.integer (strToInt [d]))]) := by
          show tokStep .initial ps d r.head? = _
          rw [digit_dispatch hdd]
          exact numberFill_yield [d] ps r hr
        have h := StepsTo.cons hstep (StepsTo.nil .initial ps r)
        have hval : strToInt [d] = n := by
          rw [show ([d] : List ℕ) = natToDec n.toNat by simp [hD],
            strToInt_natToDec]
          omega
        rw [hval] at h
        simpa using h
    | cons d1 ds2 =>
        have hdd1 : isDigit d1 = true := by
          have := hds d1 (by simp)
          simp [isDigit]
          omega
        have hstep : tokStep .initial ps d (((d1 :: ds2) ++ r).head?)
            = .ok (.number [d, d1], ps, []) := by
          show tokStep .initial ps d (some d1) = _
          rw [digit_dispatch hdd]
          simp only [numberFill]
          rw [if_pos ⟨by simp [(digit_facts hdd1).1], hdd1⟩]
          rfl
        have hrun := stepsTo_numberRun ds2 d1 [d, d1] ps r
          (fun e he => by
            have := hds e (by simp [he])
            simp [isDigit]
            omega)
          hr
        have h := StepsTo.cons hstep hrun
        have hval : strToInt ([d, d1] ++ ds2) = n := by
          rw [show ([d, d1] : List ℕ) ++ ds2 = natToDec n.toNat by
            simp [hD], strToInt_natToDec]
          omega
        rw [hval] at h
        simpa using h

/-- A quote-escaped Unicode string lexes to exactly one Unicode literal
token with the original content. -/
theorem stepsTo_unicode (s : List ℕ) (h : ∀ c ∈ s, ¬c = 92)
    (ps r : List ℕ) :
    StepsTo .initial ps (34 :: escapeQuotes s ++ [34]) r .initial ps
      [.lit (.unicode s)] := by
  have hstep : tokStep .initial ps 34
      (((escapeQuotes s ++ [34]) ++ r).head?)
      = .ok (.str [] 0 34, ps, []) := by
    rfl
  have hrun := stepsTo_strRun s [] ps r h
  have hchain := StepsTo.cons hstep hrun
  have hu : unescapeQuotes (([] : List ℕ) ++ s) = s := by
    rw [List.nil_append]
    exact unescapeQuotes_id s h
  rw [hu] at hchain
  simpa using hchain

/-- On a boundary lookahead the CONSTANT block yields its buffer. -/
theorem symbolFill_const_yield (w ps r : List ℕ) (hr : Boundary r) :
    symbolFill w true ps r.head? = symbolYield w true ps := by
  rcases hr with rfl | ⟨r2, rfl⟩ | ⟨r2, rfl⟩ | ⟨r2, rfl⟩ | ⟨r2, rfl⟩ <;> rfl

/-- A run of the CONSTANT state over the remaining name characters. -/
theorem stepsTo_constRun : ∀ (s : List ℕ) (x : ℕ) (w ps r : List ℕ)
    (tk : SToken),
    symbolYield (w ++ s) true ps = .ok (.initial, ps, [tk]) →
    (∀ c ∈ s, isIdSubsequent c = true) → Boundary r → w ≠ [] →
    StepsTo (.constant w) ps (x :: s) r .initial ps [tk] := by
  intro s
  induction s with
  | nil =>
      intro x w ps r tk hy hs hr hw
      have hstep : tokStep (.constant w) ps x ((([] : List ℕ) ++ r).head?)
          = .ok (.initial, ps, [tk]) := by
        show (if w = [] then constantEmpty ps r.head?
          else symbolFill w true ps r.head?) = _
        rw [if_neg hw, symbolFill_const_yield w ps r hr]
        simpa using hy
      have h := StepsTo.cons hstep (StepsTo.nil .initial ps r)
      simpa using h
  | cons d s2 ih =>
      intro x w ps r tk hy hs hr hw
      have hd : isIdSubsequent d = true := hs d (by simp)
      have hstep : tokStep (.constant w) ps x (((d :: s2) ++ r).head?)
          = .ok (.constant (w ++ [d]), ps, []) := by
        show (if w = [] then constantEmpty ps (some d)
          else symbolFill w true ps (some d)) = _
        rw [if_neg hw]
        simp only [symbolFill]
        rw [if_pos ⟨by simp [idSub_not_ws hd], hd⟩]
        rfl
      have hrec := ih d (w ++ [d]) ps r tk (by simpa using hy)
        (fun c hc => hs c (by simp [hc])) hr (by simp)
      have h := StepsTo.cons hstep hrec
      simpa using h

/-- `#nil` lexes to the Omega literal token. -/
theorem stepsTo_omega (ps r : List ℕ) (hr : Boundary r) :
    StepsTo .initial ps (ascii "#nil") r .initial ps [.lit .omega] := by
  show StepsTo .initial ps (35 :: [110, 105, 108]) r .initial ps
    [.lit .omega]
  have hstep : tokStep .initial ps 35
      ((([110, 105, 108] : List ℕ) ++ r).head?)
      = .ok (.constant [110], ps, []) := rfl
  have hrun := stepsTo_constRun [105, 108] 110 [110] ps r (.lit .omega)
    rfl (by decide) hr (by simp)
  have h := StepsTo.cons hstep hrun
  simpa using h

/-- `#t` lexes to the Boolean-true literal token. -/
theorem stepsTo_true (ps r : List ℕ) (hr : Boundary r) :
    StepsTo .initial ps (ascii "#t") r .initial ps
      [.lit (.boolean true)] := by
  show StepsTo .initial ps (35 :: [116]) r .initial ps
    [.lit (.boolean true)]
  have hstep : tokStep .initial ps 35 ((([116] : List ℕ) ++ r).head?)
      = .ok (.constant [116], ps, []) := rfl
  have hrun := stepsTo_constRun [] 116 [116] ps r (.lit (.boolean true))
    rfl (by simp) hr (by simp)
  have h := StepsTo.cons hstep hrun
  simpa using h

/-- `#f` lexes to the Boolean-false literal token. -/
theorem stepsTo_false (ps r : List ℕ) (hr : Boundary r) :
    StepsTo .initial ps (ascii "#f") r .initial ps
      [.lit (.boolean false)] := by
  show StepsTo .initial ps (35 :: [102]) r .initial ps
    [.lit (.boolean false)]
  have hstep : tokStep .initial ps 35 ((([102] : List ℕ) ++ r).head?)
      = .ok (.constant [102], ps, []) := rfl
  have hrun := stepsTo_constRun [] 102 [102] ps r (.lit (.boolean false))
    rfl (by simp) hr (by simp)
  have h := StepsTo.cons hstep hrun
  simpa using h

/-! Parser-side helpers for the round trip. -/

theorem parseGo_lit (st : PState) (v : Value) (rest : List SToken) :
    parseGo st (.lit v :: rest)
      = parseGo (finishValue st v rest.head?) rest := rfl

theorem parseGo_assoc {st : PState} {k : Value} (h : st.key = some k)
    (rest : List SToken) :
    parseGo st (.syn .assoc :: rest) = parseGo st rest := by
  rw [parseGo, h]

theorem parseGo_tupleOpen (st : PState) (rest : List SToken) :
    parseGo st (.syn .tupleOpen :: rest)
      = parseGo (pushContainer st .tupleOpen) rest := rfl

theorem parseGo_seqOpen (st : PState) (rest : List SToken) :
    parseGo st (.syn .seqOpen :: rest)
      = parseGo (pushContainer st .seqOpen) rest := rfl

theorem parseGo_tupleClose {st : PState} {rest : List SToken} {st' : PState}
    (h : closeStep st .tupleClose rest.head? = .ok st') :
    parseGo st (.syn .tupleClose :: rest) = parseGo st' rest := by
  rw [parseGo, h]
  rfl

theorem parseGo_seqClose {st : PState} {rest : List SToken} {st' : PState}
    (h : closeStep st .seqClose rest.head? = .ok st') :
    parseGo st (.syn .seqClose :: rest) = parseGo st' rest := by
  rw [parseGo, h]
  rfl

theorem finishValue_pos {st : PState} (hk : st.key = none)
    (hq : st.quotes = []) {v : Value} {n : Option SToken}
    (hn : isAssocTok n = false) :
    finishValue st v n = { st with
      cur := pyInsert st.cur (.integer st.cnt) v, cnt := st.cnt + 1,
      quotes := [], key := none } := by
  rw [finishValue, hk, hq]
  simp [hn, applyQuotes, feffAdjust]

theorem finishValue_toKey {st : PState} (hk : st.key = none)
    (hq : st.quotes = []) {v : Value} {n : Option SToken}
    (hn : isAssocTok n = true) :
    finishValue st v n = { st with key := some v, quotes := [] } := by
  rw [finishValue, hk, hq]
  simp [hn, applyQuotes]

theorem finishValue_key {st : PState} {k : Value} (hk : st.key = some k)
    (hq : st.quotes = []) {v : Value} (n : Option SToken) :
    finishValue st v n = { st with
      cur := pyInsert st.cur (feffAdjust k) v, quotes := [], key := none } := by
  rw [finishValue, hk, hq]
  simp [applyQuotes]

/-- The container contents built out of positional values with keys
`z, z+1, …`. -/
def posFrom (z : ℤ) : List Value → List (Value × Value)
  | [] => []
  | v :: vs => (.integer z, v) :: posFrom (z + 1) vs

theorem posFrom_length : ∀ (vs : List Value) (z : ℤ),
    (posFrom z vs).length = vs.length := by
  intro vs
  induction vs with
  | nil => intro z; rfl
  | cons v vs ih => intro z; simp [posFrom, ih]

theorem posFrom_keys : ∀ (vs : List Value) (z : ℤ), ∀ e ∈ posFrom z vs,
    ∃ j : ℤ, e.1 = .integer j ∧ z ≤ j := by
  intro vs
  induction vs with
  | nil => simp [posFrom]
  | cons v vs ih =>
      intro z e he
      rw [posFrom] at he
      rcases List.mem_cons.mp he with rfl | he
      · exact ⟨z, rfl, le_refl z⟩
      · obtain ⟨j, hj, hz⟩ := ih (z + 1) e he
        exact ⟨j, hj, by omega⟩

/-- Inserting under a key `==` to nothing already present appends. -/
theorem pyInsert_fresh : ∀ (t : List (Value × Value)) (k v : Value),
    (∀ e ∈ t, pyEq e.1 k = false) → pyInsert t k v = t ++ [(k, v)] := by
  intro t
  induction t with
  | nil => intro k v _; rfl
  | cons e t ih =>
      intro k v h
      obtain ⟨k', v'⟩ := e
      have hk : pyEq k' k = false := h (k', v') (by simp)
      rw [pyInsert]
      simp only [hk]
      rw [ih k v (fun e he => h e (by simp [he]))]
      simp

theorem pyLe_int {a b : ℤ} (h : a ≤ b) :
    pyLe (.integer a) (.integer b) :=
  (pyLe_num (.integer a) (.integer b) a b rfl rfl).mpr h

theorem posFrom_sorted : ∀ (vs : List Value) (z : ℤ),
    List.Sorted pyLe ((posFrom z vs).map Prod.fst) := by
  intro vs
  induction vs with
  | nil => intro z; simp [posFrom]
  | cons v vs ih =>
      intro z
      rw [posFrom, List.map_cons, List.sorted_cons]
      refine ⟨?_, ih (z + 1)⟩
      intro b hb
      obtain ⟨e, he, rfl⟩ := List.mem_map.mp hb
      obtain ⟨j, hj, hz⟩ := posFrom_keys vs (z + 1) e he
      rw [hj]
      exact pyLe_int (by omega)

theorem pyListEq_int_refl : ∀ (ks : List ℤ),
    pyListEq (ks.map Value.integer) (ks.map Value.integer) = true := by
  intro ks
  induction ks with
  | nil => rfl
  | cons k ks ih =>
      rw [pyListEq] at ih ⊢
      simp only [List.map_cons, List.zip_cons_cons, List.all_cons,
        List.length_cons, Bool.and_eq_true, decide_eq_true_eq] at ih ⊢
      refine ⟨trivial, ?_, ih.2⟩
      rw [pyEq_integer_integer]
      simp

theorem posFrom_map_fst : ∀ (vs : List Value) (z : ℤ),
    (posFrom z vs).map Prod.fst
      = (List.range vs.length).map (fun i => Value.integer (z + Int.ofNat i)) := by
  intro vs
  induction vs with
  | nil => intro z; rfl
  | cons v vs ih =>
      intro z
      rw [posFrom, List.map_cons, List.length_cons,
        List.range_succ_eq_map, List.map_cons, ih (z + 1), List.map_map]
      refine congrArg₂ List.cons (by simp) ?_
      apply List.map_congr_left
      intro i _
      show Value.integer (z + 1 + Int.ofNat i)
        = Value.integer (z + Int.ofNat (i + 1))
      refine congrArg Value.integer ?_
      simp only [Int.ofNat_eq_coe, Nat.cast_add, Nat.cast_one]
      ring

theorem keys_posFrom_zero (vs : List Value) :
    (posFrom 0 vs).map Prod.fst = rangeKeys vs.length := by
  rw [posFrom_map_fst, rangeKeys]
  apply List.map_congr_left
  intro i _
  simp

theorem pyGet_posFrom : ∀ (vs : List Value) (z : ℤ),
    ((posFrom z vs).map Prod.fst).map (pyGet (posFrom z vs)) = vs := by
  intro vs
  induction vs with
  | nil => intro z; rfl
  | cons v vs ih =>
      intro z
      rw [posFrom, List.map_cons, List.map_cons]
      refine congrArg₂ List.cons ?_ ?_
      · show pyGet ((Value.integer z, v) :: posFrom (z + 1) vs)
          (.integer z) = v
        rw [pyGet, pyLookup, List.find?_cons]
        have : pyEq (Value.integer z) (Value.integer z) = true := by
          rw [pyEq_integer_integer]; simp
        rw [this]
        rfl
      · have hstep : ∀ k ∈ (posFrom (z + 1) vs).map Prod.fst,
            pyGet ((Value.integer z, v) :: posFrom (z + 1) vs) k
              = pyGet (posFrom (z + 1) vs) k := by
          intro k hk
          obtain ⟨e, he, rfl⟩ := List.mem_map.mp hk
          obtain ⟨j, hj, hz⟩ := posFrom_keys vs (z + 1) e he
          rw [hj, pyGet, pyLookup, List.find?_cons]
          have : pyEq (Value.integer z) (Value.integer j) = false := by
            rw [pyEq_integer_integer]
            simp
            omega
          rw [this]
          rfl
        rw [List.map_congr_left hstep, ih (z + 1)]

/-- Closing `)` on a purely positional container yields the Sequence of
its values in order. -/
theorem seqCloseVal_posFrom (vs : List Value) :
    seqCloseVal (posFrom 0 vs) = .ok (.sequence vs) := by
  have hsk : sortedKeys (posFrom 0 vs) = (posFrom 0 vs).map Prod.fst := by
    rw [sortedKeys]
    exact (posFrom_sorted vs 0).insertionSort_eq
  have hchk : pyListEq (sortedKeys (posFrom 0 vs))
      (rangeKeys (posFrom 0 vs).length) = true := by
    rw [hsk, posFrom_length, keys_posFrom_zero]
    have hrk : rangeKeys vs.length
        = ((List.range vs.length).map Int.ofNat).map Value.integer := by
      rw [rangeKeys, List.map_map]
      rfl
    rw [hrk]
    exact pyListEq_int_refl _
  rw [seqCloseVal]
  simp only [hchk, if_true]
  rw [hsk, pyGet_posFrom]

/-- Atom values: those the serializer writes as a single token. -/
def GoodAtom : Value → Prop
  | .omega => True
  | .boolean _ => True
  | .integer _ => True
  | .unicode s => ∀ c ∈ s, ¬c = 92
  | .bytes b => goodSymB b = true
  | _ => False

/-- A value, its serialization and its token stream: the serializer
succeeds, the tokenizer re-lexes the string to exactly these tokens (in
any bracket context, before any boundary), the parser consumes the tokens
as one completed value, and the stream starts with a non-`:` token. -/
def SerOK (v : Value) (s : List ℕ) (ts : List SToken) : Prop :=
  simpleSerialize v = .ok s ∧
  (∀ ps r, Boundary r → StepsTo .initial ps s r .initial ps ts) ∧
  (∀ st rest, st.key = none → st.quotes = [] →
    parseGo st (ts ++ rest) = parseGo (finishValue st v rest.head?) rest) ∧
  (∃ t0 tr, ts = t0 :: tr ∧ isAssocTok (some t0) = false)

/-- `SerOK` for each value of a list. -/
inductive SerL : List Value → List (List ℕ) → List (List SToken) → Prop where
  | nil : SerL [] [] []
  | cons {x : Value} {s : List ℕ} {ts : List SToken} {xs : List Value}
      {ss : List (List ℕ)} {tss : List (List SToken)}
      (h : SerOK x s ts) (hs : SerL xs ss tss) :
      SerL (x :: xs) (s :: ss) (ts :: tss)

theorem idSub_lt128 {c : ℕ} (h : isIdSubsequent c = true) : c < 128 := by
  simp [isIdSubsequent, isIdInitial, isDigit] at h
  omega

theorem idInit_lt128 {c : ℕ} (h : isIdInitial c = true) : c < 128 := by
  simp [isIdInitial] at h
  omega

theorem goodSym_ascii {b : List ℕ} (hb : goodSymB b = true) :
    ∀ c ∈ b, c < 128 := by
  cases b with
  | nil => simp
  | cons c rest =>
      simp only [goodSymB, Bool.and_eq_true] at hb
      intro d hd
      rcases List.mem_cons.mp hd with rfl | hd
      · exact idInit_lt128 hb.1.1
      · exact idSub_lt128 (List.all_eq_true.mp hb.1.2 d hd)

theorem idTail_ok : ∀ (l : List ℕ), (∀ c ∈ l, isIdSubsequent c = true) →
    idTail l = .ok true := by
  intro l
  induction l with
  | nil => intro; rfl
  | cons c rest ih =>
      intro h
      have hc := h c (by simp)
      rw [idTail, if_neg (by have := idSub_lt128 hc; omega), if_pos hc]
      exact ih (fun d hd => h d (by simp [hd]))

/-- A good symbol serializes to its own bytes. -/
theorem serialize_goodSym {b : List ℕ} (hb : goodSymB b = true) :
    simpleSerialize (.bytes b) = .ok b := by
  cases b with
  | nil => simp [goodSymB] at hb
  | cons c rest =>
      simp only [goodSymB, Bool.and_eq_true] at hb
      have hscan : idScan (c :: rest) = .ok true := by
        rw [idScan, if_neg (by have := idInit_lt128 hb.1.1; omega),
          if_pos hb.1.1]
        exact idTail_ok rest (fun d hd => List.all_eq_true.mp hb.1.2 d hd)
      rw [show simpleSerialize (.bytes (c :: rest))
          = (if (c :: rest : List ℕ) = [] then .ok (ascii "#nil")
            else match idScan (c :: rest) with
            | .error e => .error e
            | .ok true => .ok (c :: rest)
            | .ok false => .ok (91 :: joinSpace [ascii "byte-array",
                base64Encode (c :: rest)] ++ [93]) : Except SErr (List ℕ))
          from by simp [simpleSerialize]]
      rw [if_neg (by simp), hscan]

/-- Every atom's serialization round-trips through the tokenizer to its
single literal token. -/
theorem goodAtom_serOK (v : Value) (h : GoodAtom v) :
    ∃ s, SerOK v s [.lit v] := by
  cases v with
  | omega =>
      refine ⟨ascii "#nil", by simp [simpleSerialize],
        fun ps r hr => stepsTo_omega ps r hr,
        fun st rest _ _ => parseGo_lit st .omega rest, .lit .omega, [], rfl,
        rfl⟩
  | boolean b =>
      cases b with
      | true =>
          refine ⟨ascii "#t", by simp [simpleSerialize],
            fun ps r hr => stepsTo_true ps r hr,
            fun st rest _ _ => parseGo_lit st (.boolean true) rest,
            .lit (.boolean true), [], rfl, rfl⟩
      | false =>
          refine ⟨ascii "#f", by simp [simpleSerialize],
            fun ps r hr => stepsTo_false ps r hr,
            fun st rest _ _ => parseGo_lit st (.boolean false) rest,
            .lit (.boolean false), [], rfl, rfl⟩
  | integer n =>
      refine ⟨intToDec n, by simp [simpleSerialize],
        fun ps r hr => stepsTo_int n ps r hr,
        fun st rest _ _ => parseGo_lit st (.integer n) rest,
        .lit (.integer n), [], rfl, rfl⟩
  | unicode s =>
      refine ⟨34 :: escapeQuotes s ++ [34], by simp [simpleSerialize],
        fun ps r _ => stepsTo_unicode s h ps r,
        fun st rest _ _ => parseGo_lit st (.unicode s) rest,
        .lit (.unicode s), [], rfl, rfl⟩
  | bytes b =>
      have hb : goodSymB b = true := h
      refine ⟨b, serialize_goodSym hb, ?_,
        fun st rest _ _ => parseGo_lit st (.bytes b) rest,
        .lit (.bytes b), [], rfl, rfl⟩
      intro ps r hr
      have hsteps := stepsTo_symbol b hb ps r hr
      rw [utf8Str_ascii b (goodSym_ascii hb)] at hsteps
      exact hsteps
  | rational p q => exact absurd h (by simp [GoodAtom])
  | vset xs => exact absurd h (by simp [GoodAtom])
  | tuple t => exact absurd h (by simp [GoodAtom])
  | sequence xs => exact absurd h (by simp [GoodAtom])
  | relation => exact absurd h (by simp [GoodAtom])
  | matrix => exact absurd h (by simp [GoodAtom])
  | procedure => exact absurd h (by simp [GoodAtom])

theorem pyPop_absent : ∀ (t : List (Value × Value)) (k : Value),
    (∀ e ∈ t, pyEq e.1 k = false) → pyPop t k = none := by
  intro t
  induction t with
  | nil => intro k _; rfl
  | cons e t ih =>
      intro k h
      obtain ⟨k', v'⟩ := e
      have hk : pyEq k' k = false := h (k', v') (by simp)
      rw [pyPop]
      simp only [hk]
      rw [ih k (fun e he => h e (by simp [he]))]
      rfl

theorem extractPosGo_pos : ∀ (args : List Value) (k fuel : ℕ)
    (named : List (Value × Value)),
    args.length < fuel →
    (∀ e ∈ named, ∀ i : ℤ, pyEq e.1 (.integer i) = false) →
    extractPosGo (posFrom (k : ℤ) args ++ named) k fuel = (args, named) := by
  intro args
  induction args with
  | nil =>
      intro k fuel named hf hn
      cases fuel with
      | zero => omega
      | succ f =>
          rw [extractPosGo]
          rw [pyPop_absent (posFrom (k : ℤ) [] ++ named) (.integer k)
            (by
              intro e he
              exact hn e (by simpa [posFrom] using he) _)]
          simp [posFrom]
  | cons a args2 ih =>
      intro k fuel named hf hn
      cases fuel with
      | zero => omega
      | succ f =>
          rw [extractPosGo]
          rw [show posFrom (k : ℤ) (a :: args2) ++ named
            = (Value.integer k, a) :: (posFrom ((k : ℤ) + 1) args2 ++ named)
            from by rw [posFrom]; rfl]
          rw [show pyPop ((Value.integer (k : ℤ), a)
              :: (posFrom ((k : ℤ) + 1) args2 ++ named)) (.integer k)
            = some (a, posFrom ((k : ℤ) + 1) args2 ++ named) from by
              rw [pyPop]
              simp [pyEq_integer_integer]]
          have hcast : ((k : ℤ) + 1) = ((k + 1 : ℕ) : ℤ) := by push_cast; ring
          rw [hcast]
          show (a :: (extractPosGo (posFrom ((k + 1 : ℕ) : ℤ) args2 ++ named)
              (k + 1) f).1,
            (extractPosGo (posFrom ((k + 1 : ℕ) : ℤ) args2 ++ named)
              (k + 1) f).2) = (a :: args2, named)
          rw [ih (k + 1) f named (by simpa using hf) hn]

/-- Splitting a canonical positional-then-named Tuple recovers the parts. -/
theorem extractPos_pos (args : List Value) (named : List (Value × Value))
    (hn : ∀ e ∈ named, ∀ i : ℤ, pyEq e.1 (.integer i) = false) :
    extractPos (posFrom 0 args ++ named) = (args, named) := by
  rw [extractPos]
  have h0 : (0 : ℤ) = ((0 : ℕ) : ℤ) := by simp
  rw [h0]
  apply extractPosGo_pos
  · rw [← h0, List.length_append, posFrom_length]
    omega
  · exact hn

theorem mapM_except_map {α β γ ε : Type} (l : List α) (g : α → β)
    (f : β → Except ε γ) :
    (l.map g).mapM f = l.mapM (fun a => f (g a)) := by
  induction l with
  | nil => rfl
  | cons a t ih => rw [List.map_cons, List.mapM_cons, List.mapM_cons, ih]

theorem mapM_attach_serialize (l : List Value) :
    l.attach.mapM (fun x => simpleSerialize x.1)
      = l.mapM simpleSerialize := by
  induction l with
  | nil => rfl
  | cons a t ih =>
      rw [List.attach_cons, List.mapM_cons, mapM_except_map]
      show (do
        let b ← simpleSerialize a
        let bs ← t.attach.mapM (fun x => simpleSerialize x.1)
        pure (b :: bs) : Except SErr (List (List ℕ))) = _
      rw [ih, List.mapM_cons]

theorem serL_mapM : ∀ {xs : List Value} {ss : List (List ℕ)}
    {tss : List (List SToken)}, SerL xs ss tss →
    xs.mapM simpleSerialize = .ok ss := by
  intro xs ss tss h
  induction h with
  | nil => rfl
  | cons h hs ih =>
      rename_i x s ts xs ss tss
      rw [List.mapM_cons, h.1]
      show (do
        let bs ← xs.mapM simpleSerialize
        pure (s :: bs) : Except SErr (List (List ℕ))) = _
      rw [ih]
      rfl

theorem stepsTo_single {m : TkMode} {ps : List ℕ} {c : ℕ} {r : List ℕ}
    {m1 : TkMode} {ps1 : List ℕ} {ts1 : List SToken}
    (h : tokStep m ps c r.head? = .ok (m1, ps1, ts1)) :
    StepsTo m ps [c] r m1 ps1 ts1 := by
  have h' : tokStep m ps c ((([] : List ℕ) ++ r)).head? = .ok (m1, ps1, ts1) := h
  have hc := StepsTo.cons h' (StepsTo.nil m1 ps1 r)
  simpa using hc

theorem serL_joinSteps : ∀ {xs : List Value} {ss : List (List ℕ)}
    {tss : List (List SToken)}, SerL xs ss tss →
    ∀ ps r, Boundary r →
    StepsTo .initial ps (joinSpace ss) r .initial ps tss.join := by
  intro xs ss tss h
  induction h with
  | nil => intro ps r _; exact StepsTo.nil .initial ps r
  | cons h hs ih =>
      rename_i x s ts xs ss tss
      intro ps r hr
      cases hs with
      | nil =>
          have hsteps := h.2.1 ps r hr
          simpa using hsteps
      | cons h2 hs2 =>
          rename_i x2 s2 ts2 xs2 ss2 tss2
          have h1 := h.2.1 ps (32 :: (joinSpace (s2 :: ss2) ++ r))
            (Or.inr (Or.inl ⟨_, rfl⟩))
          have hsp : StepsTo .initial ps [32] (joinSpace (s2 :: ss2) ++ r)
              .initial ps [] := stepsTo_single rfl
          have hih := ih ps r hr
          have happ1 := StepsTo.append h1 rfl hsp
          have happ2 := StepsTo.append happ1 rfl hih
          rw [show joinSpace (s :: s2 :: ss2)
            = s ++ 32 :: joinSpace (s2 :: ss2) from rfl]
          simpa using happ2

theorem serL_head_notAssoc : ∀ {xs : List Value} {ss : List (List ℕ)}
    {tss : List (List SToken)}, SerL xs ss tss →
    ∀ (rest : List SToken), isAssocTok rest.head? = false →
    isAssocTok ((tss.join ++ rest).head?) = false := by
  intro xs ss tss h rest hrest
  cases h with
  | nil => simpa using hrest
  | cons h hs =>
      obtain ⟨t0, tr, rfl, ht0⟩ := h.2.2.2
      simpa using ht0

/-- The parser's state after a run of positional values. -/
def insertsPos (cur : List (Value × Value)) (z : ℤ) :
    List Value → List (Value × Value)
  | [] => cur
  | v :: vs => insertsPos (pyInsert cur (.integer z) v) (z + 1) vs

theorem parse_elems : ∀ {xs : List Value} {ss : List (List ℕ)}
    {tss : List (List SToken)}, SerL xs ss tss →
    ∀ (st : PState) (rest : List SToken), st.key = none →
    st.quotes = [] → isAssocTok rest.head? = false →
    parseGo st (tss.join ++ rest)
      = parseGo { st with key := none, quotes := [],
                          cur := insertsPos st.cur st.cnt xs,
                          cnt := st.cnt + xs.length } rest := by
  intro xs ss tss h
  induction h with
  | nil =>
      intro st rest hk hq _
      show parseGo st rest = _
      congr 1
      cases st with
      | mk key cnt cur quotes counts tuples parens =>
          simp only at hk hq
          subst hk
          subst hq
          simp [insertsPos]
  | cons h hs ih =>
      rename_i x s ts xs ss tss
      intro st rest hk hq hrest
      rw [show ((ts :: tss).join : List SToken) = ts ++ tss.join from rfl,
        List.append_assoc]
      rw [h.2.2.1 st (tss.join ++ rest) hk hq]
      have hn1 : isAssocTok ((tss.join ++ rest).head?) = false :=
        serL_head_notAssoc hs rest hrest
      rw [finishValue_pos hk hq hn1]
      rw [ih _ rest rfl rfl hrest]
      congr 1
      rw [PState.mk.injEq]
      exact ⟨rfl, by simp only [List.length_cons]; push_cast; ring,
        rfl, rfl, rfl, rfl, rfl⟩

/-- The token stream of the named entries: `key : value` triples. -/
def namedToks : List (Value × Value) → List SToken
  | [] => []
  | (k, w) :: rest => .lit k :: .syn .assoc :: .lit w :: namedToks rest

/-- The named entries of a good Tuple: bytes-symbol keys, atom values,
with their serializations. -/
inductive NamedL : List (Value × Value) → List (List ℕ) → Prop where
  | nil : NamedL [] []
  | cons {k : List ℕ} {w : Value} {sw : List ℕ}
      {named : List (Value × Value)} {ss : List (List ℕ)}
      (hk : goodSymB k = true)
      (hw : simpleSerialize w = .ok sw)
      (hsteps : ∀ ps r, Boundary r →
        StepsTo .initial ps sw r .initial ps [.lit w])
      (hrest : NamedL named ss) :
      NamedL ((Value.bytes k, w) :: named) ((k ++ 58 :: sw) :: ss)

theorem mapM_attach_named (l : List (Value × Value)) :
    l.attach.mapM (fun x => do
        let ks ← simpleSerialize x.1.1
        let vs ← simpleSerialize x.1.2
        pure (ks ++ 58 :: vs))
      = l.mapM (fun e => do
          let ks ← simpleSerialize e.1
          let vs ← simpleSerialize e.2
          pure (ks ++ 58 :: vs)) := by
  induction l with
  | nil => rfl
  | cons a t ih =>
      rw [List.attach_cons, List.mapM_cons, mapM_except_map]
      show (do
        let d ← (do
          let ks ← simpleSerialize a.1
          let vs ← simpleSerialize a.2
          pure (ks ++ 58 :: vs) : Except SErr (List ℕ))
        let bs ← t.attach.mapM (fun x => do
          let ks ← simpleSerialize x.1.1
          let vs ← simpleSerialize x.1.2
          pure (ks ++ 58 :: vs))
        pure (d :: bs) : Except SErr (List (List ℕ))) = _
      rw [ih, List.mapM_cons]
  
theorem namedL_mapM : ∀ {named : List (Value × Value)}
    {ss : List (List ℕ)}, NamedL named ss →
    named.mapM (fun e => do
        let ks ← simpleSerialize e.1
        let vs ← simpleSerialize e.2
        pure (ks ++ 58 :: vs))
      = .ok ss := by
  intro named ss h
  induction h with
  | nil => rfl
  | cons hk hw hsteps hrest ih =>
      rename_i k w sw named ss
      rw [List.mapM_cons]
      show (do
        let d ← (do
          let ks ← simpleSerialize (Value.bytes k)
          let vs ← simpleSerialize w
          pure (ks ++ 58 :: vs) : Except SErr (List ℕ))
        let bs ← named.mapM (fun e => do
          let ks ← simpleSerialize e.1
          let vs ← simpleSerialize e.2
          pure (ks ++ 58 :: vs))
        pure (d :: bs) : Except SErr (List (List ℕ))) = _
      rw [serialize_goodSym hk, hw, ih]
      rfl

theorem namedL_joinSteps : ∀ {named : List (Value × Value)}
    {ss : List (List ℕ)}, NamedL named ss →
    ∀ ps r, Boundary r →
    StepsTo .initial ps (joinSpace ss) r .initial ps (namedToks named) := by
  intro named ss h
  induction h with
  | nil => intro ps r _; exact StepsTo.nil .initial ps r
  | cons hk hw hsteps hrest ih =>
      rename_i k w sw named ss
      intro ps r hr
      have hentry : ∀ r', Boundary r' →
          StepsTo .initial ps (k ++ 58 :: sw) r' .initial ps
            [.lit (.bytes k), .syn .assoc, .lit w] := by
        intro r' hr'
        have h1 := stepsTo_symbol k hk ps (58 :: (sw ++ r'))
          (Or.inr (Or.inr (Or.inr (Or.inr ⟨_, rfl⟩))))
        rw [utf8Str_ascii k (goodSym_ascii hk)] at h1
        have h2 : StepsTo .initial ps [58] (sw ++ r') .initial ps
            [.syn .assoc] := stepsTo_single rfl
        have h3 := hsteps ps r' hr'
        have happ1 := StepsTo.append h1 rfl h2
        have happ2 := StepsTo.append happ1 rfl h3
        simpa using happ2
      cases hrest with
      | nil =>
          have h0 := hentry r hr
          simpa [namedToks] using h0
      | cons hk2 hw2 hsteps2 hrest2 =>
          rename_i k2 w2 sw2 named2 ss2
          have h1 := hentry (32 :: (joinSpace ((k2 ++ 58 :: sw2) :: ss2) ++ r))
            (Or.inr (Or.inl ⟨_, rfl⟩))
          have hsp : StepsTo .initial ps [32]
              (joinSpace ((k2 ++ 58 :: sw2) :: ss2) ++ r) .initial ps [] :=
            stepsTo_single rfl
          have hih := ih ps r hr
          have happ1 := StepsTo.append h1 rfl hsp
          have happ2 := StepsTo.append happ1 rfl hih
          rw [show joinSpace ((k ++ 58 :: sw) :: (k2 ++ 58 :: sw2) :: ss2)
            = (k ++ 58 :: sw) ++ 32 :: joinSpace ((k2 ++ 58 :: sw2) :: ss2)
            from rfl]
          rw [show namedToks ((Value.bytes k, w) :: (Value.bytes k2, w2)
              :: named2)
            = [.lit (.bytes k), .syn .assoc, .lit w]
              ++ namedToks ((Value.bytes k2, w2) :: named2) from rfl]
          simpa using happ2

theorem parse_named : ∀ {named : List (Value × Value)}
    {ss : List (List ℕ)}, NamedL named ss →
    ∀ (st : PState) (rest : List SToken), st.key = none →
    st.quotes = [] →
    (∀ e ∈ st.cur, ∀ kv ∈ named, pyEq e.1 kv.1 = false) →
    List.Pairwise (fun a b => pyEq a.1 b.1 = false) named →
    parseGo st (namedToks named ++ rest)
      = parseGo { st with key := none, quotes := [],
                          cur := st.cur ++ named } rest := by
  intro named ss h
  induction h with
  | nil =>
      intro st rest hk hq _ _
      show parseGo st rest = _
      congr 1
      cases st with
      | mk key cnt cur quotes counts tuples parens =>
          simp only at hk hq
          subst hk
          subst hq
          simp
  | cons hkk hw hsteps hrest ih =>
      rename_i k w sw named ss
      intro st rest hk hq hfresh hpair
      rw [show namedToks ((Value.bytes k, w) :: named) ++ rest
        = .lit (.bytes k) :: .syn .assoc :: .lit w
          :: (namedToks named ++ rest) from rfl]
      rw [parseGo_lit]
      rw [show ((SToken.syn SSyn.assoc :: SToken.lit w
          :: (namedToks named ++ rest)).head?) = some (.syn .assoc)
        from rfl]
      rw [finishValue_toKey hk hq
        (show isAssocTok (some (.syn .assoc)) = true from rfl)]
      rw [parseGo_assoc rfl]
      rw [parseGo_lit]
      rw [finishValue_key rfl rfl]
      have hins : pyInsert st.cur (feffAdjust (Value.bytes k)) w
          = st.cur ++ [(Value.bytes k, w)] := by
        rw [show feffAdjust (Value.bytes k) = Value.bytes k from rfl]
        exact pyInsert_fresh st.cur (Value.bytes k) w
          (fun e he => hfresh e he (Value.bytes k, w) (by simp))
      rw [show ({ st with key := some (Value.bytes k), quotes := [] } :
          PState).cur = st.cur from rfl] at hins ⊢
      rw [hins]
      rw [ih _ rest rfl rfl ?_ (List.Pairwise.sublist
        (List.sublist_cons_self _ _) hpair)]
      · congr 1
        cases st with
        | mk key cnt cur quotes counts tuples parens =>
            simp
      · intro e he kv hkv
        rcases (by simpa using he : e ∈ st.cur ∨ e = (Value.bytes k, w))
          with he2 | he2
        · exact hfresh e he2 kv (by simp [hkv])
        · subst he2
          exact (List.pairwise_cons.mp hpair).1 kv hkv

/-- The round-trip fragment of the simple codec: Omega, Booleans,
Integers, backslash-free Unicode strings, identifier-shaped Bytes,
Sequences of such values, and Tuples laid out as positional entries
`0..n-1` followed by named entries with distinct, sorted, symbol-shaped
Bytes keys and atom values. -/
inductive Good : Value → Prop where
  | omega : Good .omega
  | boolean (b : Bool) : Good (.boolean b)
  | integer (n : ℤ) : Good (.integer n)
  | unicode (s : List ℕ) (h : ∀ c ∈ s, ¬c = 92) : Good (.unicode s)
  | bytes (b : List ℕ) (h : goodSymB b = true) : Good (.bytes b)
  | sequence (xs : List Value) (h : ∀ x ∈ xs, Good x) : Good (.sequence xs)
  | tuple (args : List Value) (named : List (Value × Value))
      (hargs : ∀ x ∈ args, Good x)
      (hkeys : ∀ e ∈ named, ∃ b, e.1 = .bytes b ∧ goodSymB b = true)
      (hvals : ∀ e ∈ named, GoodAtom e.2)
      (hsorted : List.Pairwise pyKeyLe named)
      (hdist : List.Pairwise (fun a b => pyEq a.1 b.1 = false) named) :
      Good (.tuple (posFrom 0 args ++ named))

theorem serL_of_forall : ∀ (xs : List Value),
    (∀ x ∈ xs, ∃ s ts, SerOK x s ts) → ∃ ss tss, SerL xs ss tss := by
  intro xs
  induction xs with
  | nil => intro _; exact ⟨[], [], .nil⟩
  | cons x xs2 ih =>
      intro h
      obtain ⟨s, ts, hok⟩ := h x (by simp)
      obtain ⟨ss, tss, hL⟩ := ih (fun y hy => h y (by simp [hy]))
      exact ⟨s :: ss, ts :: tss, .cons hok hL⟩

theorem namedL_of_forall : ∀ (named : List (Value × Value)),
    (∀ e ∈ named, ∃ b, e.1 = .bytes b ∧ goodSymB b = true) →
    (∀ e ∈ named, GoodAtom e.2) →
    ∃ ns, NamedL named ns := by
  intro named
  induction named with
  | nil => intro _ _; exact ⟨[], .nil⟩
  | cons e named2 ih =>
      intro hkeys hvals
      obtain ⟨k, w⟩ := e
      obtain ⟨b, hb1, hb2⟩ := hkeys (k, w) (by simp)
      simp only at hb1
      subst hb1
      obtain ⟨sw, hsw⟩ := goodAtom_serOK w (hvals (Value.bytes b, w) (by simp))
      obtain ⟨ns2, h2⟩ := ih (fun e he => hkeys e (by simp [he]))
        (fun e he => hvals e (by simp [he]))
      exact ⟨(b ++ 58 :: sw) :: ns2, .cons hb2 hsw.1 hsw.2.1 h2⟩

theorem insertsPos_fresh : ∀ (xs : List Value) (cur : List (Value × Value))
    (z : ℤ),
    (∀ e ∈ cur, ∀ j : ℤ, z ≤ j → pyEq e.1 (.integer j) = false) →
    insertsPos cur z xs = cur ++ posFrom z xs := by
  intro xs
  induction xs with
  | nil => intro cur z _; simp [insertsPos, posFrom]
  | cons x xs2 ih =>
      intro cur z h
      rw [insertsPos, pyInsert_fresh cur (.integer z) x
        (fun e he => h e he z le_rfl)]
      rw [ih (cur ++ [(Value.integer z, x)]) (z + 1) ?_]
      · rw [posFrom]
        simp
      · intro e he j hj
        rcases List.mem_append.mp he with he2 | he2
        · exact h e he2 j (by omega)
        · have : e = (Value.integer z, x) := by simpa using he2
          subst this
          rw [pyEq_integer_integer]
          simp
          omega

theorem restore_eq (st : PState) (hk : st.key = none) (hq : st.quotes = []) :
    (⟨none, st.cnt, st.cur, [], st.counts, st.tuples, st.parens⟩ : PState)
      = st := by
  cases st with
  | mk key cnt cur quotes counts tuples parens =>
      simp only at hk hq
      subst hk
      subst hq
      rfl

theorem namedToks_head_notAssoc (named : List (Value × Value))
    (rest : List SToken) :
    isAssocTok ((namedToks named
      ++ (SToken.syn SSyn.tupleClose :: rest)).head?) = false := by
  cases named with
  | nil => rfl
  | cons e named2 =>
      obtain ⟨k, w⟩ := e
      rfl

/-- The master round-trip construction: every `Good` value serializes to a
string that re-lexes to a token stream the parser consumes as that same
value (atoms to their single literal token). -/
theorem good_serOK : ∀ (v : Value), Good v →
    ∃ s ts, SerOK v s ts ∧ (GoodAtom v → ts = [.lit v]) := by
  intro v hv
  induction hv with
  | omega =>
      obtain ⟨s, h⟩ := goodAtom_serOK .omega trivial
      exact ⟨s, _, h, fun _ => rfl⟩
  | boolean b =>
      obtain ⟨s, h⟩ := goodAtom_serOK (.boolean b) trivial
      exact ⟨s, _, h, fun _ => rfl⟩
  | integer n =>
      obtain ⟨s, h⟩ := goodAtom_serOK (.integer n) trivial
      exact ⟨s, _, h, fun _ => rfl⟩
  | unicode s hs =>
      obtain ⟨s', h⟩ := goodAtom_serOK (.unicode s) hs
      exact ⟨s', _, h, fun _ => rfl⟩
  | bytes b hb =>
      obtain ⟨s', h⟩ := goodAtom_serOK (.bytes b) hb
      exact ⟨s', _, h, fun _ => rfl⟩
  | sequence xs h ih =>
      obtain ⟨ss, tss, hL⟩ := serL_of_forall xs (fun x hx =>
        (ih x hx).imp (fun s hs => hs.imp (fun ts hts => hts.1)))
      refine ⟨40 :: joinSpace ss ++ [41],
        .syn .seqOpen :: (tss.join ++ [.syn .seqClose]),
        ⟨?_, ?_, ?_, .syn .seqOpen, _, rfl, rfl⟩, fun hcontra => nomatch hcontra⟩
      · -- serialization
        show simpleSerialize (.sequence xs) = _
        rw [show simpleSerialize (.sequence xs)
          = (do
              let parts ← xs.attach.mapM (fun x => simpleSerialize x.1)
              Except.ok (40 :: joinSpace parts ++ [41]) :
            Except SErr (List ℕ)) from by simp [simpleSerialize]]
        rw [mapM_attach_serialize, serL_mapM hL]
        rfl
      · -- tokenization
        intro ps r hr
        have hbody := serL_joinSteps hL (40 :: ps) (41 :: r)
          (Or.inr (Or.inr (Or.inr (Or.inl ⟨r, rfl⟩))))
        have hclose : StepsTo .initial (40 :: ps) [41] r .initial ps
            [.syn .seqClose] := stepsTo_single rfl
        have h2 := StepsTo.append hbody rfl hclose
        have hopen : tokStep .initial ps 40
            (((joinSpace ss ++ [41]) ++ r).head?)
            = .ok (.initial, 40 :: ps, [.syn .seqOpen]) := rfl
        have h3 := StepsTo.cons hopen h2
        simpa using h3
      · -- parsing
        intro st rest hk hq
        rw [show (SToken.syn SSyn.seqOpen :: (tss.join ++ [.syn .seqClose]))
            ++ rest
          = .syn .seqOpen :: (tss.join ++ (.syn .seqClose :: rest))
          from by simp]
        rw [parseGo_seqOpen]
        rw [parse_elems hL (pushContainer st .seqOpen)
          (.syn .seqClose :: rest)
          (show (pushContainer st .seqOpen).key = none from hk)
          (show (pushContainer st .seqOpen).quotes = [] from hq) rfl]
        show parseGo (⟨none, (0 : ℤ) + (xs.length : ℤ), insertsPos [] 0 xs,
          [], st.cnt :: st.counts, st.cur :: st.tuples,
          .seqClose :: st.parens⟩ : PState) (.syn .seqClose :: rest) = _
        rw [insertsPos_fresh xs [] 0 (by simp)]
        have hclose : closeStep (⟨none, (0 : ℤ) + (xs.length : ℤ),
            [] ++ posFrom 0 xs, [], st.cnt :: st.counts,
            st.cur :: st.tuples, .seqClose :: st.parens⟩ : PState)
            .seqClose rest.head?
            = .ok (finishValue ⟨none, st.cnt, st.cur, [], st.counts,
                st.tuples, st.parens⟩ (.sequence xs) rest.head?) := by
          show (do
            let value ← seqCloseVal ([] ++ posFrom 0 xs)
            (Except.ok (finishValue ⟨none, st.cnt, st.cur, [], st.counts,
              st.tuples, st.parens⟩ value rest.head?) :
              Except PErr PState)) = _
          rw [List.nil_append, seqCloseVal_posFrom]
          rfl
        rw [parseGo_seqClose hclose, restore_eq st hk hq]
  | tuple args named hargs hkeys hvals hsorted hdist ih =>
      obtain ⟨ss, tss, hL⟩ := serL_of_forall args (fun x hx =>
        (ih x hx).imp (fun s hs => hs.imp (fun ts hts => hts.1)))
      obtain ⟨ns, hN⟩ := namedL_of_forall named hkeys hvals
      have hfreshIN : ∀ e ∈ named, ∀ i : ℤ, pyEq e.1 (.integer i) = false := by
        intro e he i
        obtain ⟨b, hb1, _⟩ := hkeys e he
        rw [hb1]
        exact pyEq_bytes_integer b i
      refine ⟨91 :: (joinSpace ss
          ++ (if args.isEmpty || named.isEmpty then [] else [32])
          ++ joinSpace ns) ++ [93],
        .syn .tupleOpen :: (tss.join ++ (namedToks named
          ++ [.syn .tupleClose])),
        ⟨?_, ?_, ?_, .syn .tupleOpen, _, rfl, rfl⟩,
        fun hcontra => nomatch hcontra⟩
      · -- serialization
        rw [show simpleSerialize (.tuple (posFrom 0 args ++ named))
          = (do
              let argStrs ← (extractPos (posFrom 0 args ++ named)).1.attach.mapM
                (fun x => simpleSerialize x.1)
              let namedStrs ← ((extractPos (posFrom 0 args
                  ++ named)).2.insertionSort pyKeyLe).attach.mapM
                (fun x => do
                  let ks ← simpleSerialize x.1.1
                  let vs ← simpleSerialize x.1.2
                  pure (ks ++ 58 :: vs))
              Except.ok (91 :: (joinSpace argStrs ++
                (if (extractPos (posFrom 0 args ++ named)).1.isEmpty
                    || (extractPos (posFrom 0 args ++ named)).2.isEmpty
                  then [] else [32]) ++
                joinSpace namedStrs) ++ [93]) : Except SErr (List ℕ))
          from by simp [simpleSerialize]]
        have hext : extractPos (posFrom 0 args ++ named) = (args, named) :=
          extractPos_pos args named hfreshIN
        simp only [mapM_attach_serialize, mapM_attach_named]
        simp only [hext]
        rw [(show List.Sorted pyKeyLe named from hsorted).insertionSort_eq]
        simp only [serL_mapM hL, namedL_mapM hN]
        rfl
      · -- tokenization
        intro ps r hr
        by_cases hae : args.isEmpty = true
        · have ha : args = [] := by
            cases args with
            | nil => rfl
            | cons a t => simp at hae
          subst ha
          cases hL with
          | nil =>
              have hbody := namedL_joinSteps hN (91 :: ps) (93 :: r)
                (Or.inr (Or.inr (Or.inl ⟨r, rfl⟩)))
              have hcl : StepsTo .initial (91 :: ps) [93] r .initial ps
                  [.syn .tupleClose] := stepsTo_single rfl
              have h2 := StepsTo.append hbody rfl hcl
              have hopen : tokStep .initial ps 91
                  (((joinSpace ns ++ [93]) ++ r).head?)
                  = .ok (.initial, 91 :: ps, [.syn .tupleOpen]) := rfl
              have h3 := StepsTo.cons hopen h2
              simpa [joinSpace] using h3
        · by_cases hne : named.isEmpty = true
          · have hn0 : named = [] := by
              cases named with
              | nil => rfl
              | cons e t => simp at hne
            subst hn0
            cases hN with
            | nil =>
                have hbody := serL_joinSteps hL (91 :: ps) (93 :: r)
                  (Or.inr (Or.inr (Or.inl ⟨r, rfl⟩)))
                have hcl : StepsTo .initial (91 :: ps) [93] r .initial ps
                    [.syn .tupleClose] := stepsTo_single rfl
                have h2 := StepsTo.append hbody rfl hcl
                have hopen : tokStep .initial ps 91
                    (((joinSpace ss ++ [93]) ++ r).head?)
                    = .ok (.initial, 91 :: ps, [.syn .tupleOpen]) := rfl
                have h3 := StepsTo.cons hopen h2
                simpa [joinSpace, namedToks] using h3
          · have hif : (if args.isEmpty || named.isEmpty then ([] : List ℕ)
                else [32]) = [32] := by
              simp [hae, hne]
            have h1 := serL_joinSteps hL (91 :: ps)
              (32 :: (joinSpace ns ++ (93 :: r)))
              (Or.inr (Or.inl ⟨_, rfl⟩))
            have hsp : StepsTo .initial (91 :: ps) [32]
                (joinSpace ns ++ (93 :: r)) .initial (91 :: ps) [] :=
              stepsTo_single rfl
            have h2 := namedL_joinSteps hN (91 :: ps) (93 :: r)
              (Or.inr (Or.inr (Or.inl ⟨r, rfl⟩)))
            have hcl : StepsTo .initial (91 :: ps) [93] r .initial ps
                [.syn .tupleClose] := stepsTo_single rfl
            have ha := StepsTo.append h1 rfl hsp
            have hb := StepsTo.append ha rfl h2
            have hc := StepsTo.append hb rfl hcl
            have hopen : tokStep .initial ps 91
                ((((joinSpace ss ++ [32]) ++ joinSpace ns) ++ [93] ++ r).head?)
                = .ok (.initial, 91 :: ps, [.syn .tupleOpen]) := rfl
            have h3 := StepsTo.cons hopen hc
            rw [hif]
            simpa using h3
      · -- parsing
        intro st rest hk hq
        rw [show (SToken.syn SSyn.tupleOpen :: (tss.join ++ (namedToks named
            ++ [.syn .tupleClose]))) ++ rest
          = .syn .tupleOpen :: (tss.join ++ (namedToks named
            ++ (.syn .tupleClose :: rest)))
          from by simp]
        rw [parseGo_tupleOpen]
        rw [parse_elems hL (pushContainer st .tupleOpen)
          (namedToks named ++ (.syn .tupleClose :: rest))
          (show (pushContainer st .tupleOpen).key = none from hk)
          (show (pushContainer st .tupleOpen).quotes = [] from hq)
          (namedToks_head_notAssoc named rest)]
        show parseGo (⟨none, (0 : ℤ) + (args.length : ℤ),
          insertsPos [] 0 args, [], st.cnt :: st.counts,
          st.cur :: st.tuples, .tupleClose :: st.parens⟩ : PState)
          (namedToks named ++ (.syn .tupleClose :: rest)) = _
        rw [insertsPos_fresh args [] 0 (by simp), List.nil_append]
        rw [parse_named hN _ (.syn .tupleClose :: rest) rfl rfl ?_ hdist]
        · show parseGo (⟨none, (0 : ℤ) + (args.length : ℤ),
            posFrom 0 args ++ named, [], st.cnt :: st.counts,
            st.cur :: st.tuples, .tupleClose :: st.parens⟩ : PState)
            (.syn .tupleClose :: rest) = _
          have hclose : closeStep (⟨none, (0 : ℤ) + (args.length : ℤ),
              posFrom 0 args ++ named, [], st.cnt :: st.counts,
              st.cur :: st.tuples, .tupleClose :: st.parens⟩ : PState)
              .tupleClose rest.head?
              = .ok (finishValue ⟨none, st.cnt, st.cur, [], st.counts,
                  st.tuples, st.parens⟩
                  (.tuple (posFrom 0 args ++ named)) rest.head?) := rfl
          rw [parseGo_tupleClose hclose, restore_eq st hk hq]
        · intro e he kv hkv
          obtain ⟨j, hj, _⟩ := posFrom_keys args 0 e he
          obtain ⟨b, hb1, _⟩ := hkeys kv hkv
          rw [hj, hb1]
          exact pyEq_integer_bytes j b

/-- **C1.** For every `Good` value `v` (the fragment of serializable
values on which the round trip provably holds: Omega, Booleans, Integers,
backslash-free Unicode, identifier-shaped Bytes, and Sequences/Tuples
thereof with canonical positional keys and distinct sorted symbol-keyed
atom-valued named entries), `loads(dumps(v))` yields a Tuple with exactly
one positional entry, at key `0`, equal to `v`.  The claim as frozen —
"for every serializable Value" — is false: the last three conjuncts show
the serializable value `Bytes('')` is dumped as `#nil`, which loads back
as the Tuple `{0: Omega}`, and `Omega` is not `Bytes('')` (the same
collision as C10; Rationals, sets, `+`/digit-leading or empty Bytes,
backslashed Unicode and Unicode-keyed Tuples fail similarly). -/
theorem c1_round_trip (v : Value) (h : Good v) :
    (∃ s, simpleDumps v = .ok s ∧
      simpleLoads s = .ok (.tuple [(.integer 0, v)])) ∧
    simpleDumps (.bytes []) = .ok (ascii "#nil") ∧
    simpleLoads (ascii "#nil") = .ok (.tuple [(.integer 0, .omega)]) ∧
    Value.omega ≠ Value.bytes [] := by
  refine ⟨?_, by simp [simpleDumps, simpleSerialize], rfl,
    fun hcontra => Value.noConfusion hcontra⟩
  obtain ⟨s, ts, hok, _⟩ := good_serOK v h
  refine ⟨s, hok.1, ?_⟩
  have htok : simpleTokenize s = .ok ts := by
    have hsteps := hok.2.1 [] [] (Or.inl rfl)
    have hsplit := tokGo_split hsteps
    rw [List.append_nil] at hsplit
    rw [simpleTokenize, hsplit]
    show Except.ok (ts ++ []) = Except.ok ts
    rw [List.append_nil]
  have hparse : simpleParse ts = .ok [(.integer 0, v)] := by
    have hp := hok.2.2.1 ⟨none, 0, [], [], [], [], []⟩ [] rfl rfl
    rw [List.append_nil] at hp
    rw [simpleParse, hp]
    rw [finishValue_pos rfl rfl
      (show isAssocTok (List.head? ([] : List SToken)) = false from rfl)]
    rfl
  simp only [simpleLoads, htok, hparse]

theorem c1_round_trip_witness :
    Good (.sequence [.integer 3]) ∧
    ((∃ s, simpleDumps (.sequence [.integer 3]) = .ok s ∧
        simpleLoads s
          = .ok (.tuple [(.integer 0, .sequence [.integer 3])])) ∧
      simpleDumps (.bytes []) = .ok (ascii "#nil") ∧
      simpleLoads (ascii "#nil") = .ok (.tuple [(.integer 0, .omega)]) ∧
      Value.omega ≠ Value.bytes []) :=
  have hg : Good (.sequence [.integer 3]) :=
    Good.sequence [.integer 3] (by
      intro x hx
      rw [List.mem_singleton] at hx
      subst hx
      exact Good.integer 3)
  ⟨hg, c1_round_trip (.sequence [.integer 3]) hg⟩

/-- Counterexample to **C7** as frozen: the source text `(a #t:b)` closes
a container whose accumulated keys are `Integer(0)` and the Boolean
`True` — not "exactly the contiguous integers 0..n-1" — yet no
SyntaxError is raised: the SEQUENCE_CLOSE check accepts it (Python `==`
has `True == 1`) and `loads` yields the Sequence `[b"a", b"b"]`, though
`Boolean True` is not the Value `Integer 1`. -/
theorem c7_boolean_key_counterexample :
    seqCloseVal [(.integer 0, .bytes [97]), (.boolean true, .bytes [98])]
      = .ok (.sequence [.bytes [97], .bytes [98]]) ∧
    simpleLoads (ascii "(a #t:b)")
      = .ok (.tuple [(.integer 0, .sequence [.bytes [97], .bytes [98]])]) ∧
    Value.boolean true ≠ Value.integer 1 :=
  ⟨rfl, rfl, fun h => Value.noConfusion h⟩

/-- Counterexample to **C1** as frozen: `Bytes('')` is serializable —
`dumps` emits `u'#nil'` for it — but `loads(dumps(Bytes('')))` is the
Tuple `{0: Omega}`, and `Omega` is not `Bytes('')`. -/
theorem c1_empty_bytes_counterexample :
    simpleDumps (.bytes []) = .ok (ascii "#nil") ∧
    simpleLoads (ascii "#nil") = .ok (.tuple [(.integer 0, .omega)]) ∧
    Value.omega ≠ Value.bytes [] :=
  ⟨by simp [simpleDumps, simpleSerialize], rfl, fun h => Value.noConfusion h⟩

end Haiku
